import Mathlib

/-!
Verification of the directed-graph / connected-component / best-path core of the
`conversations` repository (file `src/conversations/Graph.py`, cost type
`src/conversations/graph/conv/ConvCost.py`).

The Python code is shallowly embedded: the adjacency dictionary becomes an
association list that preserves key insertion order (Python dicts preserve
insertion order), Python lists become Lean lists, the two traversal `while`
loops become fuel-indexed structural recursions (the fuel bounds are generous;
all concrete evaluations below stay far below them), and calls that can raise
a Python exception return `Except`.  Nodes are Segment objects in Python; the
object identity that Python dictionaries key on is modelled by the `nid` field.
-/

namespace Conversations

/-- A node of the graph.  In the repository a node is a `Segment` carrying a
speaker label and a time interval (`onset`, `offset`); node identity is object
identity in Python, modelled here by the `nid` field. -/
structure Node where
  nid : Nat
  speaker : Nat
  onset : Int
  offset : Int
deriving DecidableEq, Repr

/-- Segment duration, `offset - onset`. -/
def Node.duration (n : Node) : Int := n.offset - n.onset

/-- Embedding of `ConvCost` (`src/conversations/graph/conv/ConvCost.py`).
The `_speakers` list, `_duration`, `_turn_transitions`,
`_multi_unit_turn_transitions` fields, plus the `_ancestor` field stored by the
abstract `Cost` base class. -/
structure ConvCost where
  ancestor : Node
  speakers : List Nat
  duration : Int
  turn_transitions : Nat
  multi_unit_turn_transitions : Nat
deriving DecidableEq, Repr

/-- `ConvCost.__init__`: seeded from a single segment. -/
def ConvCost.init (s : Node) : ConvCost :=
  { ancestor := s
    speakers := [s.speaker]
    duration := s.duration
    turn_transitions := 0
    multi_unit_turn_transitions := 0 }

/-- `ConvCost.__add__`: deep copy, keep the original ancestor, add the segment
duration, bump the (multi-unit) turn-transition counters by comparing the new
speaker with `_speakers[-1]`, append the speaker.  The `_speakers` list is
never empty for a cost built from `init` and `addNode`, so the `getD` default
below is never read. -/
def ConvCost.addNode (c : ConvCost) (other : Node) : ConvCost :=
  { ancestor := c.ancestor
    speakers := c.speakers ++ [other.speaker]
    duration := c.duration + other.duration
    turn_transitions :=
      c.turn_transitions + (if other.speaker ≠ (c.speakers.getLast?.getD 0) then 1 else 0)
    multi_unit_turn_transitions :=
      c.multi_unit_turn_transitions + (if other.speaker = (c.speakers.getLast?.getD 0) then 1 else 0) }

/-- The three capabilities of a cost type used by `DirectedGraph`: a
constructor from a seed node (`cost_counter(start_node)`), the combine
operation (`cost + node`), and the `ancestor` accessor. -/
structure CostOps (κ : Type) where
  seed : Node → κ
  combine : κ → Node → κ
  ancestor : κ → Node

/-- `ConvCost` packaged as a `CostOps`. -/
def convOps : CostOps ConvCost :=
  { seed := ConvCost.init, combine := ConvCost.addNode, ancestor := ConvCost.ancestor }

/-- First element of the list whose `duration` is maximal (later elements
replace the current best only when strictly greater).  This is the value
`sorted(path_list, reverse=True, key=attrgetter("duration"))[0]` computed by
`default_path_selection_rules` / `standard_path_selection_rules` with selection
key `duration` (Python sort is stable, so ties keep the earlier element). -/
def selMaxDurationAux (best : ConvCost) : List ConvCost → ConvCost
  | [] => best
  | c :: rest => if best.duration < c.duration then selMaxDurationAux c rest
                 else selMaxDurationAux best rest

/-- See `selMaxDurationAux`.  Python raises `IndexError` on an empty list; the
empty case returns a junk cost and is never reached in the developments
below. -/
def selMaxDuration : List ConvCost → ConvCost
  | [] => ConvCost.init ⟨0, 0, 0, 0⟩
  | c :: rest => selMaxDurationAux c rest

/-- Per-node payload of the adjacency dictionary:
`self.adjacency[node] = {'cost': dict, 'next': list}`.  The cost table maps an
ancestor node to the pair (best cost seen for that ancestor, node the cost
came from); Python temporarily stores `(None, None)` via `setdefault` but
always overwrites it in the same iteration, so the entry type needs no
options. -/
structure NodeData (κ : Type) where
  cost : List (Node × κ × Node)
  next : List Node
deriving DecidableEq, Repr

/-- Embedding of `DirectedGraph.__init__`: the adjacency dictionary (as an
insertion-ordered association list) and the stored transition-rules callable.
Keyword-argument context (`**kwargs`) is modelled by letting the caller close
the rules over any context. -/
structure DirectedGraph (κ : Type) where
  adjacency : List (Node × NodeData κ)
  transition_rules : Node → Node → Bool

/-- Fresh graph: empty adjacency and the default always-true transition rules
(`lambda candidate_node, connected_node, **kwargs: True`). -/
def DirectedGraph.empty (κ : Type) : DirectedGraph κ :=
  { adjacency := [], transition_rules := fun _ _ => true }

/-- Nodes of the graph, in dictionary insertion order (`adjacency.keys()`). -/
def DirectedGraph.nodes {κ : Type} (g : DirectedGraph κ) : List Node :=
  g.adjacency.map Prod.fst

/-- Dictionary lookup `self.adjacency[node]`.  The default is never read for
nodes registered by `add_edge`; Python raises `KeyError` for unknown nodes. -/
def lookupData {κ : Type} (g : DirectedGraph κ) (n : Node) : NodeData κ :=
  match g.adjacency.find? (fun e => e.1 = n) with
  | some e => e.2
  | none => { cost := [], next := [] }

/-- In-place update of the payload of node `n` (no effect when `n` is not a
key; Python would raise `KeyError` there, and every update performed by the
algorithms below targets a registered node). -/
def updateData {κ : Type} (g : DirectedGraph κ) (n : Node) (f : NodeData κ → NodeData κ) :
    DirectedGraph κ :=
  { g with adjacency := g.adjacency.map (fun e => if e.1 = n then (e.1, f e.2) else e) }

/-- `self.adjacency.setdefault(node, dict())` plus the `cost` and `next`
sub-defaults: appends a fresh entry at the end when the key is new. -/
def ensureNode {κ : Type} (g : DirectedGraph κ) (n : Node) : DirectedGraph κ :=
  if g.adjacency.any (fun e => e.1 = n) then g
  else { g with adjacency := g.adjacency ++ [(n, { cost := [], next := [] })] }

/-- `DirectedGraph.add_edge`: register both endpoints, then append `node2` to
the successor list of `node1`. -/
def add_edge {κ : Type} (g : DirectedGraph κ) (node1 node2 : Node) : DirectedGraph κ :=
  let g := ensureNode g node1
  let g := ensureNode g node2
  updateData g node1 (fun d => { d with next := d.next ++ [node2] })

/-- `DirectedGraph.from_tuple_list`: fold `add_edge` over the edge list,
starting from a fresh graph (with the default transition rules). -/
def from_tuple_list (κ : Type) (l : List (Node × Node)) : DirectedGraph κ :=
  l.foldl (fun g p => add_edge g p.1 p.2) (DirectedGraph.empty κ)

/-- `list(self)` via `DirectedGraph.__iter__`: every (source, target) pair, in
adjacency insertion order, then successor-list order. -/
def edgeList {κ : Type} (g : DirectedGraph κ) : List (Node × Node) :=
  g.adjacency.flatMap (fun e => e.2.next.map (fun m => (e.1, m)))

/-- `DirectedGraph.num_edges`. -/
def num_edges {κ : Type} (g : DirectedGraph κ) : Nat := (edgeList g).length

/-- First-occurrence deduplication.  Python materialises `set(...)`; only
membership and set difference are observable, except that `compute_costs`
iterates the resulting set in an unspecified hash order, fixed here as
first-occurrence order. -/
def firstDedupAux (seen : List Node) : List Node → List Node
  | [] => []
  | a :: rest =>
      if a ∈ seen then firstDedupAux seen rest
      else a :: firstDedupAux (a :: seen) rest

/-- See `firstDedupAux`. -/
def firstDedup (l : List Node) : List Node := firstDedupAux [] l

/-- `DirectedGraph.start_nodes`: `left, right = zip(*list(self))` followed by
`set(left) - set(right)`.  On a graph with no edges, unpacking `zip(*[])`
raises `ValueError`. -/
def start_nodes {κ : Type} (g : DirectedGraph κ) : Except String (List Node) :=
  let es := edgeList g
  if es.isEmpty then Except.error "ValueError: not enough values to unpack"
  else Except.ok ((firstDedup (es.map Prod.fst)).filter
    (fun n => ¬ (n ∈ es.map Prod.snd)))

/-- `DirectedGraph.end_nodes`: `set(right) - set(left)`, same unpacking
failure on a graph with no edges. -/
def end_nodes {κ : Type} (g : DirectedGraph κ) : Except String (List Node) :=
  let es := edgeList g
  if es.isEmpty then Except.error "ValueError: not enough values to unpack"
  else Except.ok ((firstDedup (es.map Prod.snd)).filter
    (fun n => ¬ (n ∈ es.map Prod.fst)))

/-- `DirectedGraph._apply_transition_rules`: defer to the stored callable. -/
def applyTransitionRules {κ : Type} (g : DirectedGraph κ) (candidate connected : Node) : Bool :=
  g.transition_rules candidate connected

/-- Python truthiness of a node, for the `if not connected_node: continue`
check in `get_connected_components`.  `Segment` defines neither `__bool__` nor
`__len__`, so instances are always truthy and the branch never fires. -/
def nodeIsFalsy (_ : Node) : Bool := false

/-! ## Component extraction (`get_connected_components`, lines 171-228)

The inner `while next_nodes_to_visit:` loop.  Python pops the LAST element of
the list (`pop()`): the Lean `stack` below is that list reversed, so the head
of `stack` is the Python top of stack, and `extend`-ing new pairs at the
Python end is consing their reversal here.  Fuel-indexed; the fuel used by the
wrapper is far above the worst case for the evaluated graphs. -/

def gccInner {κ : Type} (g : DirectedGraph κ) :
    Nat → List (Node × Node) → List (Node × Node) → List (Node × Node) →
    (List (Node × Node)) × List (Node × Node)
  | 0, _, visited, transition => (visited, transition)
  | _ + 1, [], visited, transition => (visited, transition)
  | fuel + 1, p :: rest, visited, transition =>
      if p ∈ visited then gccInner g fuel rest visited transition
      else
        let visited := p :: visited
        if nodeIsFalsy p.2 then gccInner g fuel rest visited transition
        else if applyTransitionRules g p.1 p.2 then
          let connected_nodes := (lookupData g p.2).next
          let next_node_pairs := connected_nodes.map (fun m => (p.2, m))
          gccInner g fuel (next_node_pairs.reverse ++ rest) visited (transition ++ [p])
        else gccInner g fuel rest visited transition

/-- The outer `for node in self.adjacency.keys():` loop: seed the stack with
the pairs (node, successor), run the inner loop, keep the accumulated
`transition` list when non-empty.  The `visited_pairs` set is shared across
seeds. -/
def gccChainsAux {κ : Type} (g : DirectedGraph κ) (fuel : Nat) :
    List Node → List (Node × Node) → List (List (Node × Node)) → List (List (Node × Node))
  | [], _, chains => chains
  | n :: ns, visited, chains =>
      let connected_nodes := (lookupData g n).next
      let stack := (connected_nodes.map (fun m => (n, m))).reverse
      let res := gccInner g fuel stack visited []
      gccChainsAux g fuel ns res.1 (if res.2.isEmpty then chains else chains ++ [res.2])

/-- All chains produced by the traversal phase of `get_connected_components`,
before the merge pass (`chain_sequences` at line 210). -/
def gccChains {κ : Type} (g : DirectedGraph κ) (fuel : Nat) : List (List (Node × Node)) :=
  gccChainsAux g fuel (DirectedGraph.nodes g) [] []

/-- `set(chain(*chain_sequences[i]))`: every node of every pair of a chain.
Python materialises a set; only membership is observed, so a plain list
suffices. -/
def nodesOfChain (c : List (Node × Node)) : List Node :=
  c.flatMap (fun p => [p.1, p.2])

/-- Inner loop of the merge pass (lines 216-222): `for i_t2 in
range(i_t1 + 1, len(chain_sequences))`.  Faithful to the source, which does
NOT re-check `to_skip` for `i_t2` and does NOT recompute `t1_flat` after a
merge: both omissions are observable below. -/
def mergeInner (i1 : Nat) (t1flat : List Node) :
    List Nat → List (List (Node × Node)) × List Nat → List (List (Node × Node)) × List Nat
  | [], st => st
  | i2 :: rest, (cs, skip) =>
      let t2flat := nodesOfChain (cs.getD i2 [])
      if t1flat.any (fun n => n ∈ t2flat) then
        mergeInner i1 t1flat rest
          (cs.set i1 (cs.getD i1 [] ++ cs.getD i2 []),
           if i2 ∈ skip then skip else skip ++ [i2])
      else mergeInner i1 t1flat rest (cs, skip)

/-- Outer loop of the merge pass (lines 212-222): skip indices already merged
away, flatten the chain once (`t1_flat`), scan the later chains. -/
def mergeOuter :
    List Nat → List (List (Node × Node)) × List Nat → List (List (Node × Node)) × List Nat
  | [], st => st
  | i1 :: rest, (cs, skip) =>
      if i1 ∈ skip then mergeOuter rest (cs, skip)
      else
        let t1flat := nodesOfChain (cs.getD i1 [])
        mergeOuter rest (mergeInner i1 t1flat ((List.range cs.length).drop (i1 + 1)) (cs, skip))

/-- The full merge pass: returns the updated `chain_sequences` and `to_skip`. -/
def mergePass (chains : List (List (Node × Node))) :
    List (List (Node × Node)) × List Nat :=
  mergeOuter (List.range chains.length) (chains, [])

/-- Fuel for the traversal phase: each accepted pair pushes at most one batch
of successor pairs, so the number of stack pops is bounded by a quadratic in
the number of edges. -/
def gccFuel {κ : Type} (g : DirectedGraph κ) : Nat :=
  (num_edges g + 1) * (num_edges g + 1) + 1

/-- `DirectedGraph.get_connected_components`: traversal phase, merge pass,
then one graph per surviving chain
(`[DirectedGraph.from_tuple_list(item) for idx, item in enumerate(...) if idx not in to_skip]`). -/
def get_connected_components {κ : Type} (g : DirectedGraph κ) : List (DirectedGraph κ) :=
  let res := mergePass (gccChains g (gccFuel g))
  ((res.1.enum.filter (fun e => ¬ (e.1 ∈ res.2))).map (fun e => from_tuple_list κ e.2))

/-! ## Cost propagation (`_compute_cost` / `compute_costs`, lines 273-349) -/

/-- Association-list lookup in a per-node cost table
(`self.adjacency[node]['cost'][ancestor]`). -/
def lookupCost {κ : Type} (t : List (Node × κ × Node)) (a : Node) : Option (κ × Node) :=
  match t.find? (fun e => e.1 = a) with
  | some e => some e.2
  | none => none

/-- Dictionary store `table[ancestor] = value`: overwrite in place when the
key exists, append at the end otherwise (Python dict semantics). -/
def setCost {κ : Type} (t : List (Node × κ × Node)) (a : Node) (v : κ × Node) :
    List (Node × κ × Node) :=
  if t.any (fun e => e.1 = a) then t.map (fun e => if e.1 = a then (a, v) else e)
  else t ++ [(a, v)]

/-- Lines 322-333 of `_compute_cost`, for one `outgoing_node` and one
`previous_cost`: build `outgoing_node_cost = previous_cost + outgoing_node`,
look up the entry with the same ancestor, pick via `selection_rule` when one
exists, and record the chosen cost with the node it came from.  Python
compares `current_path_cost == prev_path_cost` by object identity; costs are
values here and the comparison is by value, which coincides for selection
rules (such as the sorted-based ones of the repository) that return the
first stored maximum on ties. -/
def installCost {κ : Type} [DecidableEq κ] (ops : CostOps κ) (sel : List κ → κ)
    (t : List (Node × κ × Node)) (incoming : Node) (previousCost : κ) (outgoing : Node) :
    List (Node × κ × Node) :=
  match lookupCost t (ops.ancestor (ops.combine previousCost outgoing)) with
  | none =>
      setCost t (ops.ancestor (ops.combine previousCost outgoing))
        (ops.combine previousCost outgoing, incoming)
  | some (prevPathCost, prevPathIncoming) =>
      setCost t (ops.ancestor (ops.combine previousCost outgoing))
        (sel [prevPathCost, ops.combine previousCost outgoing],
         if sel [prevPathCost, ops.combine previousCost outgoing] = prevPathCost
         then prevPathIncoming else incoming)

/-- Lines 307-334 of `_compute_cost`: processing of one popped pair with
current node `cur`.  `previous_costs` (the values of the table of `cur`, read
once before the update loop; the construction invariant excludes self-loops,
so the Python dict view never observes the updates) falls back to the seed
cost when the table of `cur` is empty (first node); then every successor
gets, for every previous cost, an updated table entry, and the pairs
(cur, successor) are returned for the queue. -/
def processNode {κ : Type} [DecidableEq κ] (ops : CostOps κ) (sel : List κ → κ)
    (seedCost : κ) (g : DirectedGraph κ) (cur : Node) :
    DirectedGraph κ × List (Option Node × Node) :=
  ((lookupData g cur).next.foldl (fun g2 o =>
      (if (lookupData g cur).cost.isEmpty then [seedCost]
       else (lookupData g cur).cost.map (fun e => e.2.1)).foldl (fun g3 pc =>
          updateData g3 o (fun d => { d with cost := installCost ops sel d.cost cur pc o })) g2) g,
   (lookupData g cur).next.map (fun o => (some cur, o)))

/-- The `while next_nodes_to_visit:` loop of `_compute_cost`: pop the FIRST
pair (`pop(0)`, breadth first), skip if visited, otherwise process it and
extend the queue with the new pairs. -/
def computeCostLoop {κ : Type} [DecidableEq κ] (ops : CostOps κ) (sel : List κ → κ)
    (seedCost : κ) :
    Nat → DirectedGraph κ → List (Option Node × Node) → List (Option Node × Node) →
    DirectedGraph κ
  | 0, g, _, _ => g
  | _ + 1, g, [], _ => g
  | fuel + 1, g, p :: rest, visited =>
      if p ∈ visited then computeCostLoop ops sel seedCost fuel g rest visited
      else
        let res := processNode ops sel seedCost g p.2
        computeCostLoop ops sel seedCost fuel res.1 (rest ++ res.2) (p :: visited)

/-- Fuel for one `_compute_cost` call: at most `num_edges + 1` pairs are ever
processed and each enqueues at most `num_edges` pairs. -/
def computeCostFuel {κ : Type} (g : DirectedGraph κ) : Nat :=
  (num_edges g + 1) * (num_edges g + 1) + 1

/-- `DirectedGraph._compute_cost`: initialise the seed cost
(`cost_counter(start_node)`), start the queue at `(None, start_node)` with an
empty visited set, and run the loop. -/
def compute_cost {κ : Type} [DecidableEq κ] (g : DirectedGraph κ) (ops : CostOps κ)
    (sel : List κ → κ) (start_node : Node) : DirectedGraph κ :=
  computeCostLoop ops sel (ops.seed start_node) (computeCostFuel g) g [(none, start_node)] []

/-- `DirectedGraph.compute_costs`: one `_compute_cost` pass per start node.
`self.start_nodes` raises on a graph with no edges, hence the `Except`. -/
def compute_costs {κ : Type} [DecidableEq κ] (g : DirectedGraph κ) (ops : CostOps κ)
    (sel : List κ → κ) : Except String (DirectedGraph κ) :=
  (start_nodes g).map (fun starts => starts.foldl (fun g s => compute_cost g ops sel s) g)

/-! ## Best path (`best_path`, lines 351-386) -/

/-- `path_cost_temp[path_cost] = (end_node, previous_node)`.  Python keys this
dictionary by cost objects (identity hashing, every stored cost is a distinct
object); values here are keyed by cost value, which coincides whenever the
stored cost values are pairwise distinct, as in every evaluation below. -/
def tempInsert {κ : Type} [DecidableEq κ] (l : List (κ × Node × Node)) (k : κ)
    (v : Node × Node) : List (κ × Node × Node) :=
  if l.any (fun e => e.1 = k) then l.map (fun e => if e.1 = k then (k, v) else e)
  else l ++ [(k, v)]

/-- Lookup in `path_cost_temp`. -/
def tempLookup {κ : Type} [DecidableEq κ] (l : List (κ × Node × Node)) (k : κ) :
    Option (Node × Node) :=
  match l.find? (fun e => e.1 = k) with
  | some e => some e.2
  | none => none

/-- Lines 370-373: collect, for every end node, every (cost, previous node)
entry of its table into `path_cost_temp`. -/
def collectEndCosts {κ : Type} [DecidableEq κ] (g : DirectedGraph κ) (ends : List Node) :
    List (κ × Node × Node) :=
  ends.foldl (fun acc e =>
    (lookupData g e).cost.foldl (fun acc entry =>
      tempInsert acc entry.2.1 (e, entry.2.2)) acc) []

/-- Lines 381-384, the backward reconstruction loop:
`while self.adjacency[previous_node]['cost']:` append
`...['cost'][target_start_node][-1]` and move there.  A missing
`target_start_node` key is the Python `KeyError`; fuel exhaustion stands for
non-termination of the Python loop (never reached below). -/
def walkBack {κ : Type} [DecidableEq κ] (g : DirectedGraph κ) (target : Node) :
    Nat → Node → List Node → Except String (List Node)
  | 0, _, _ => Except.error "fuel exhausted"
  | fuel + 1, previous_node, acc =>
      if (lookupData g previous_node).cost.isEmpty then Except.ok acc
      else
        match lookupCost (lookupData g previous_node).cost target with
        | none => Except.error "KeyError: target_start_node"
        | some e => walkBack g target fuel e.2 (acc ++ [e.2])

/-- `pairwise` from `conversations/utils.py`:
`[a, b, c] -> [(a, b), (b, c)]`. -/
def pairwiseList {α : Type} : List α → List (α × α)
  | a :: b :: rest => (a, b) :: pairwiseList (b :: rest)
  | _ => []

/-- The body of `DirectedGraph.best_path`, returning both the winning cost
(`best_end_node` in the source, a `Cost` object) and the backward node list
built by the reconstruction loop: propagate costs, gather every end-node cost
entry, let the selection rule pick the winner over all collected costs, take
its recorded (end node, previous node) pair, and walk backwards towards the
ancestor of the winner. -/
def bestPathCore {κ : Type} [DecidableEq κ] (g : DirectedGraph κ) (ops : CostOps κ)
    (sel : List κ → κ) : Except String (κ × List Node) :=
  (compute_costs g ops sel).bind (fun g2 =>
    (end_nodes g2).bind (fun ends =>
      if (collectEndCosts g2 ends).isEmpty then
        Except.error "selection over an empty collection"
      else
        match tempLookup (collectEndCosts g2 ends)
            (sel ((collectEndCosts g2 ends).map Prod.fst)) with
        | none => Except.error "KeyError: best_end_node"
        | some ep =>
            (walkBack g2 (ops.ancestor (sel ((collectEndCosts g2 ends).map Prod.fst)))
              (g2.adjacency.length + 1) ep.2 [ep.1, ep.2]).map
              (fun walk => (sel ((collectEndCosts g2 ends).map Prod.fst), walk))))

/-- `DirectedGraph.best_path`: `list(pairwise(reversed(best_path)))`. -/
def best_path {κ : Type} [DecidableEq κ] (g : DirectedGraph κ) (ops : CostOps κ)
    (sel : List κ → κ) : Except String (List (Node × Node)) :=
  (bestPathCore g ops sel).map (fun r => pairwiseList r.2.reverse)

/-- Re-accumulate a cost from scratch along a node sequence: seed from the
first node, then fold the combine operation over the rest. -/
def foldPathCost {κ : Type} (ops : CostOps κ) (first : Node) (rest : List Node) : κ :=
  rest.foldl ops.combine (ops.seed first)

/-- Cost table of one node, as stored after propagation. -/
def costTableAt {κ : Type} (g : DirectedGraph κ) (n : Node) : List (Node × κ × Node) :=
  (lookupData g n).cost

/-- Replace the stored transition rules (the effect of the
`transition_rules` property setter on a callable argument). -/
def withRules {κ : Type} (g : DirectedGraph κ) (r : Node → Node → Bool) : DirectedGraph κ :=
  { g with transition_rules := r }

/-! ## Concrete instances used by the claims -/

/-- Nodes of the merge-pass counterexample graphs.  Onsets strictly increase
along every edge used below (`n3 < n1 < n5 < n2 < n4`), so the graphs satisfy
the acyclicity construction invariant of the domain. -/
def n1 : Node := ⟨1, 1, 5, 7⟩

def n2 : Node := ⟨2, 2, 20, 22⟩

def n3 : Node := ⟨3, 3, 0, 2⟩

def n4 : Node := ⟨4, 4, 30, 32⟩

def n5 : Node := ⟨5, 5, 8, 9⟩

/-- Edges `1→2, 3→2, 3→4, 5→4`: a single weakly connected graph whose
traversal produces the chains `[(1,2)]`, `[(3,4),(3,2)]`, `[(5,4)]` in this
order. -/
def gMerge : DirectedGraph ConvCost :=
  from_tuple_list ConvCost [(n1, n2), (n3, n2), (n3, n4), (n5, n4)]

/-- Edges `1→2, 5→4, 3→2, 3→4`: same raw graph as `gMerge` up to insertion
order; the chain of seed `3` is now last, and the merge pass copies it into
two surviving chains. -/
def gMergeDup : DirectedGraph ConvCost :=
  from_tuple_list ConvCost [(n1, n2), (n5, n4), (n3, n2), (n3, n4)]

/-- Nodes of the best-path counterexample: a short edge `s→b2` competing with
the longer route `s→p1→p2→b2`, then `b2→w→u`.  All durations are 5 and all
speakers differ. -/
def nS : Node := ⟨11, 1, 0, 5⟩

def nP1 : Node := ⟨12, 2, 10, 15⟩

def nP2 : Node := ⟨13, 3, 20, 25⟩

def nB2 : Node := ⟨14, 4, 30, 35⟩

def nW : Node := ⟨15, 5, 40, 45⟩

def nU : Node := ⟨16, 6, 50, 55⟩

/-- The best-path counterexample graph. -/
def gBest : DirectedGraph ConvCost :=
  from_tuple_list ConvCost
    [(nS, nB2), (nS, nP1), (nP1, nP2), (nP2, nB2), (nB2, nW), (nW, nU)]

/-- Nodes of the concrete scenario of claim C5: `D` (onset 0), `E` (onset 0,
different speaker), `F` (onset 50), edges `D→F` and `E→F`. -/
def nD : Node := ⟨21, 1, 0, 10⟩

def nE : Node := ⟨22, 2, 0, 10⟩

def nF : Node := ⟨23, 1, 50, 60⟩

/-- The graph of claim C5. -/
def gDEF : DirectedGraph ConvCost :=
  from_tuple_list ConvCost [(nD, nF), (nE, nF)]

/-- Two nodes forming the single edge of the policy counterexample. -/
def nA : Node := ⟨31, 1, 0, 5⟩

def nB : Node := ⟨32, 2, 10, 15⟩

/-- Single edge `A→B` with a transition policy that rejects every edge. -/
def gRej : DirectedGraph ConvCost :=
  withRules (from_tuple_list ConvCost [(nA, nB)]) (fun _ _ => false)

/-! ## Weak connectivity of the raw adjacency (specification-side definition)

Modelled from the spec: "the components returned equal the standard
weakly-connected components of the raw adjacency".  Two nodes are weakly
connected when one reaches the other through edges taken in either
direction. -/

/-- Plain function iteration (structural, kernel-reducible). -/
def iterN {α : Type} (f : α → α) : Nat → α → α
  | 0, a => a
  | fuel + 1, a => iterN f fuel (f a)

/-- Undirected neighbours of `n`: successors plus predecessors in the raw
edge list. -/
def undirNeighbors {κ : Type} (g : DirectedGraph κ) (n : Node) : List Node :=
  (lookupData g n).next ++
    (edgeList g).filterMap (fun e => if e.2 = n then some e.1 else none)

/-- One closure step: a set of nodes together with all their undirected
neighbours. -/
def weakStep {κ : Type} (g : DirectedGraph κ) (s : List Node) : List Node :=
  firstDedup (s ++ s.flatMap (undirNeighbors g))

/-- Weak reachability: iterate the closure step once per node of the graph. -/
def weakReachB {κ : Type} (g : DirectedGraph κ) (a b : Node) : Bool :=
  b ∈ iterN (weakStep g) g.adjacency.length [a]

/-! ## The transition-rules setter (claim C7)

The stored `_transition_rules` attribute can hold an arbitrary Python object;
the values relevant here are callables and non-callables (for instance an
integer).  The setter (lines 158-169) runs
`assert callable(self.transition_rules)` — the PROPERTY, that is the value
currently stored — before assigning the new value. -/

/-- A Python value assigned to `transition_rules`: a callable, or a
non-callable object such as an integer. -/
inductive PyValue where
  | callableFn (f : Node → Node → Bool)
  | intVal (n : Nat)

/-- `callable(v)`. -/
def PyValue.isCallable : PyValue → Bool
  | callableFn _ => true
  | intVal _ => false

/-- The default rules installed by `DirectedGraph.__init__`
(`lambda candidate_node, connected_node, **kwargs: True`). -/
def defaultTransitionRules : PyValue := .callableFn (fun _ _ => true)

/-- The `transition_rules` property setter: assert that the CURRENT stored
value is callable (the source consults `self.transition_rules`, not the new
argument), then install the new value. -/
def setTransitionRules (current new : PyValue) : Except String PyValue :=
  if current.isCallable then Except.ok new
  else Except.error "ValueError: Transition rules were not set properly or are not callable!"

/-- `_apply_transition_rules` when the stored attribute may be any Python
value: calling a non-callable raises `TypeError`. -/
def applyStoredRules (stored : PyValue) (candidate connected : Node) : Except String Bool :=
  match stored with
  | .callableFn f => Except.ok (f candidate connected)
  | .intVal _ => Except.error "TypeError: object is not callable"

/-! ## Invariants of cost propagation (used to settle claim C10)

`T` is the set of edge targets of the underlying graph and `S` the set of
seeds used by `compute_costs`.  `CostInv` collects the state invariants of the
relaxation: nonempty tables live only at edge targets; every table entry is
keyed by the ancestor of its stored cost and that key is a seed; table keys
are unique; the predecessor recorded by an entry either has an entry for the
same key or is the key itself (a seed, hence not a target); successor lists
point into `T`. -/

def CostInv {κ : Type} (ops : CostOps κ) (T S : List Node) (g : DirectedGraph κ) : Prop :=
  (∀ n : Node, (lookupData g n).cost ≠ [] → n ∈ T) ∧
  (∀ n : Node, ∀ en ∈ (lookupData g n).cost, ops.ancestor en.2.1 = en.1 ∧ en.1 ∈ S) ∧
  (∀ n : Node, (((lookupData g n).cost).map Prod.fst).Nodup) ∧
  (∀ (n a : Node) (c : κ) (p : Node), lookupCost (lookupData g n).cost a = some (c, p) →
    lookupCost (lookupData g p).cost a ≠ none ∨ (p = a ∧ ¬ p ∈ T)) ∧
  (∀ n m : Node, m ∈ (lookupData g n).next → m ∈ T)

/-- Monotone evolution of the graph state along cost propagation: successor
lists are untouched, nonempty tables stay nonempty, present keys stay
present. -/
def StepOk {κ : Type} (g g' : DirectedGraph κ) : Prop :=
  (∀ n : Node, (lookupData g' n).next = (lookupData g n).next) ∧
  (∀ n : Node, (lookupData g n).cost ≠ [] → (lookupData g' n).cost ≠ []) ∧
  (∀ (n a : Node), lookupCost (lookupData g n).cost a ≠ none →
    lookupCost (lookupData g' n).cost a ≠ none)

/-- Queue well-formedness for one `_compute_cost` call seeded at `s`: a
queued node with an empty cost table is the seed itself, or has no
successors (in which case processing it is a no-op). -/
def QOk {κ : Type} (g : DirectedGraph κ) (s : Node) (pr : Option Node × Node) : Prop :=
  (lookupData g pr.2).cost = [] → (pr.2 = s ∨ (lookupData g pr.2).next = [])

/-- Side condition justifying one table install: the cost being propagated
from `cur` is either already keyed (by its ancestor) in the table of `cur`,
or is the seed cost and `cur` is the seed. -/
def Dcond {κ : Type} (ops : CostOps κ) (s : Node) (g : DirectedGraph κ)
    (cur : Node) (pc : κ) : Prop :=
  lookupCost (lookupData g cur).cost (ops.ancestor pc) ≠ none ∨
    (cur = ops.ancestor pc ∧ cur = s)

end Conversations

deriving instance DecidableEq for Except

namespace Conversations

/-! ## Claim theorems -/

/-- C1: claimed, for every graph and policy, the returned components are
pairwise node-disjoint.  Refuted by evaluation: on `gMerge` (edges `1→2, 3→2,
3→4, 5→4`, default policy) the code returns two components whose node sets
are `{1,2,3,4}` and `{5,4}` — both contain node `4`, because the merge pass
never refreshes `t1_flat` after a merge, so the chain `[(5,4)]` is not merged
into the first component even though it shares node `4` with it. -/
theorem claim_C1_components_share_node_four :
    (get_connected_components gMerge).map DirectedGraph.nodes = [[n1, n2, n3, n4], [n5, n4]] ∧
    ((get_connected_components gMerge).map DirectedGraph.nodes).countP
      (fun c => n4 ∈ c) = 2 := by decide

/-- C3: claimed, under the default policy the returned components are exactly
the weakly connected components of the raw adjacency.  Refuted by evaluation:
every pair of nodes of `gMerge` is weakly connected (a single weak component),
yet the code returns two components. -/
theorem claim_C3_not_the_weak_components :
    (gMerge.nodes.all (fun x => gMerge.nodes.all (fun y => weakReachB gMerge x y))) = true ∧
    (get_connected_components gMerge).length = 2 := by decide

/-- C9: claimed, each ordered (source, target) pair occurs at most once in
total across the components returned by one call.  Refuted by evaluation: on
`gMergeDup` the chain of seed `3` is merged into the surviving chain of seed
`1` AND into the surviving chain of seed `5` (the inner merge loop never
checks `to_skip`), so the pairs `(3,4)` and `(3,2)` each occur twice across
the returned list. -/
theorem claim_C9_pair_emitted_twice :
    (get_connected_components gMergeDup).map edgeList =
      [[(n1, n2), (n3, n4), (n3, n2)], [(n5, n4), (n3, n4), (n3, n2)]] ∧
    (((get_connected_components gMergeDup).map edgeList).flatten.count (n3, n4)) = 2 := by decide

/-- C4: claimed, on success the reconstructed path starts at the winning
ancestor and re-folding the reconstructed node sequence reproduces the winning
cost.  Refuted by evaluation on `gBest`: the winning cost (duration 20, the
short route `s→b2→w→u`) carries predecessor pointers that were rewritten when
the longer route `s→p1→p2→b2` later relaxed `b2` and `w`, but node `u` was
never re-relaxed because the pair `(b2, w)` had already been consumed by
`visited_pairs`.  The walk therefore follows the long route: it does start at
the winning ancestor `s`, but folding its node sequence gives duration 30,
not the winning 20. -/
theorem claim_C4_refold_mismatch :
    bestPathCore gBest convOps selMaxDuration =
      Except.ok
        ({ ancestor := nS, speakers := [1, 4, 5, 6], duration := 20,
           turn_transitions := 3, multi_unit_turn_transitions := 0 },
         [nU, nW, nB2, nP2, nP1, nS]) ∧
    best_path gBest convOps selMaxDuration =
      Except.ok [(nS, nP1), (nP1, nP2), (nP2, nB2), (nB2, nW), (nW, nU)] ∧
    foldPathCost convOps nS [nP1, nP2, nB2, nW, nU] =
      { ancestor := nS, speakers := [1, 2, 3, 4, 5, 6], duration := 30,
        turn_transitions := 5, multi_unit_turn_transitions := 0 } := by
  refine ⟨rfl, rfl, rfl⟩

/-- C5: the concrete `D/E/F` scenario.  One component containing both edges,
and after `compute_costs` the table at `F` holds exactly two entries, keyed by
ancestor `D` and by ancestor `E`. -/
theorem claim_C5_two_ancestors_at_F :
    (get_connected_components gDEF).map edgeList = [[(nD, nF), (nE, nF)]] ∧
    (compute_costs gDEF convOps selMaxDuration).map
        (fun g => (costTableAt g nF).map Prod.fst) = Except.ok [nD, nE] := by
  refine ⟨rfl, rfl⟩

/-- C7: claimed, supplying a non-callable policy fails at installation (or at
first use, before traversal state mutates).  Refuted: the setter asserts
`callable(self.transition_rules)` — the PREVIOUSLY stored value, here the
always-callable default — so installing the integer `5` succeeds silently,
and the `TypeError` only surfaces later, when `_apply_transition_rules`
invokes the stored object mid-traversal. -/
theorem claim_C7_noncallable_installs_silently :
    setTransitionRules defaultTransitionRules (PyValue.intVal 5) =
      Except.ok (PyValue.intVal 5) ∧
    applyStoredRules (PyValue.intVal 5) nA nB =
      Except.error "TypeError: object is not callable" := by
  refine ⟨rfl, rfl⟩

/-- C2 counterexample: with the all-rejecting policy on the single edge
`A→B`, the policy rejects `(A, B)` (and component extraction accordingly
returns nothing), yet after `compute_costs` node `B` still receives a cost
entry keyed by ancestor `A`: `_compute_cost` never consults the transition
policy. -/
theorem claim_C2_rejected_successor_gets_cost :
    applyTransitionRules gRej nA nB = false ∧
    (get_connected_components gRej).map edgeList = [] ∧
    (compute_costs gRej convOps selMaxDuration).map
        (fun g => (costTableAt g nB).map Prod.fst) = Except.ok [nA] := by
  refine ⟨rfl, rfl, rfl⟩

/-- C6 counterexample: cost tables are not local to one propagation pass.
On `gBest`, the first `compute_costs` leaves the (stale) duration-20 entry at
`u`; a second call on the same graph observes the tables left behind and
upgrades the entry at `u` to duration 30.  Had the second call started from
empty per-node tables, determinism would have reproduced the duration-20
entry. -/
theorem claim_C6_tables_persist_across_calls :
    (compute_costs gBest convOps selMaxDuration).map
        (fun g => (costTableAt g nU).map (fun e => e.2.1.duration)) = Except.ok [20] ∧
    ((compute_costs gBest convOps selMaxDuration).bind
        (fun g1 => compute_costs g1 convOps selMaxDuration)).map
        (fun g => (costTableAt g nU).map (fun e => e.2.1.duration)) = Except.ok [30] := by
  refine ⟨rfl, rfl⟩

/-- C8 counterexample: on a graph with no edges, `start_nodes` and
`end_nodes` raise (`zip(*[])` cannot be unpacked into two variables) instead
of returning the empty set. -/
theorem claim_C8_no_edges_raises :
    start_nodes (DirectedGraph.empty ConvCost) =
      Except.error "ValueError: not enough values to unpack" ∧
    end_nodes (DirectedGraph.empty ConvCost) =
      Except.error "ValueError: not enough values to unpack" := by
  refine ⟨rfl, rfl⟩

/-! ## Membership lemmas for the set-difference characterisation (claim C8) -/

lemma mem_firstDedupAux (l : List Node) : ∀ (seen : List Node) (n : Node),
    n ∈ firstDedupAux seen l ↔ (n ∈ l ∧ n ∉ seen) := by
  induction l with
  | nil => intro seen n; simp [firstDedupAux]
  | cons a rest ih =>
      intro seen n
      by_cases ha : a ∈ seen
      · rw [firstDedupAux, if_pos ha, ih]
        simp only [List.mem_cons]
        constructor
        · exact fun h => ⟨Or.inr h.1, h.2⟩
        · rintro ⟨h1 | h1, h2⟩
          · subst h1; exact absurd ha h2
          · exact ⟨h1, h2⟩
      · rw [firstDedupAux, if_neg ha]
        simp only [List.mem_cons, ih, not_or]
        constructor
        · rintro (h | ⟨h1, h2, h3⟩)
          · subst h; exact ⟨Or.inl rfl, ha⟩
          · exact ⟨Or.inr h1, h3⟩
        · rintro ⟨h | h, hs⟩
          · subst h; exact Or.inl rfl
          · by_cases hna : n = a
            · subst hna; exact Or.inl rfl
            · exact Or.inr ⟨h, hna, hs⟩

lemma mem_firstDedup (l : List Node) (n : Node) : n ∈ firstDedup l ↔ n ∈ l := by
  rw [firstDedup, mem_firstDedupAux]; simp

/-- C8, amended: when the graph has at least one edge, `start_nodes` is
exactly sources minus targets and `end_nodes` is exactly targets minus
sources (membership characterisation of the two set differences). -/
theorem claim_C8_set_difference {κ : Type} (g : DirectedGraph κ)
    (h : edgeList g ≠ []) (n : Node) :
    ∃ ls le, start_nodes g = Except.ok ls ∧ end_nodes g = Except.ok le ∧
      (n ∈ ls ↔ n ∈ (edgeList g).map Prod.fst ∧ n ∉ (edgeList g).map Prod.snd) ∧
      (n ∈ le ↔ n ∈ (edgeList g).map Prod.snd ∧ n ∉ (edgeList g).map Prod.fst) := by
  have he : (edgeList g).isEmpty = false := by
    cases hE : edgeList g with
    | nil => exact absurd hE h
    | cons a l => rfl
  refine ⟨(firstDedup ((edgeList g).map Prod.fst)).filter
            (fun n => ¬ (n ∈ (edgeList g).map Prod.snd)),
          (firstDedup ((edgeList g).map Prod.snd)).filter
            (fun n => ¬ (n ∈ (edgeList g).map Prod.fst)), ?_, ?_, ?_, ?_⟩
  · rw [start_nodes]; simp only [he, Bool.false_eq_true, if_false]
  · rw [end_nodes]; simp only [he, Bool.false_eq_true, if_false]
  · simp [List.mem_filter, mem_firstDedup]
  · simp [List.mem_filter, mem_firstDedup]

/-- Witness for `claim_C8_set_difference` at the concrete graph `gDEF`. -/
theorem claim_C8_set_difference_witness :
    ∃ ls le, start_nodes gDEF = Except.ok ls ∧ end_nodes gDEF = Except.ok le ∧
      (nD ∈ ls ↔ nD ∈ (edgeList gDEF).map Prod.fst ∧ nD ∉ (edgeList gDEF).map Prod.snd) ∧
      (nD ∈ le ↔ nD ∈ (edgeList gDEF).map Prod.snd ∧ nD ∉ (edgeList gDEF).map Prod.fst) :=
  claim_C8_set_difference gDEF (by decide) nD

/-! ## The cost machinery reads and writes only the adjacency (claims C2, C6) -/

lemma lookupData_adj_eq {κ : Type} {g1 g2 : DirectedGraph κ}
    (h : g1.adjacency = g2.adjacency) (n : Node) : lookupData g1 n = lookupData g2 n := by
  simp [lookupData, h]

lemma updateData_adj_eq {κ : Type} {g1 g2 : DirectedGraph κ}
    (h : g1.adjacency = g2.adjacency) (n : Node) (f : NodeData κ → NodeData κ) :
    (updateData g1 n f).adjacency = (updateData g2 n f).adjacency := by
  simp [updateData, h]

lemma edgeList_adj_eq {κ : Type} {g1 g2 : DirectedGraph κ}
    (h : g1.adjacency = g2.adjacency) : edgeList g1 = edgeList g2 := by
  simp [edgeList, h]

lemma foldl_adj_eq {κ α : Type} (S : DirectedGraph κ → α → DirectedGraph κ)
    (hS : ∀ (g1 g2 : DirectedGraph κ) (x : α), g1.adjacency = g2.adjacency →
      (S g1 x).adjacency = (S g2 x).adjacency) :
    ∀ (l : List α) (g1 g2 : DirectedGraph κ), g1.adjacency = g2.adjacency →
      (l.foldl S g1).adjacency = (l.foldl S g2).adjacency := by
  intro l
  induction l with
  | nil => intro g1 g2 h; exact h
  | cons x rest ih => intro g1 g2 h; exact ih (S g1 x) (S g2 x) (hS g1 g2 x h)

lemma processNode_adj_eq {κ : Type} [DecidableEq κ] (ops : CostOps κ) (sel : List κ → κ)
    (sc : κ) {g1 g2 : DirectedGraph κ} (h : g1.adjacency = g2.adjacency) (cur : Node) :
    (processNode ops sel sc g1 cur).1.adjacency = (processNode ops sel sc g2 cur).1.adjacency ∧
    (processNode ops sel sc g1 cur).2 = (processNode ops sel sc g2 cur).2 := by
  unfold processNode
  rw [lookupData_adj_eq h]
  refine ⟨?_, rfl⟩
  refine foldl_adj_eq _ ?_ _ _ _ h
  intro g1 g2 o hgg
  refine foldl_adj_eq _ ?_ _ _ _ hgg
  intro g1 g2 pc hgg
  exact updateData_adj_eq hgg _ _

lemma computeCostLoop_adj_eq {κ : Type} [DecidableEq κ] (ops : CostOps κ) (sel : List κ → κ)
    (sc : κ) : ∀ (fuel : Nat) {g1 g2 : DirectedGraph κ}
    (_ : g1.adjacency = g2.adjacency) (q v : List (Option Node × Node)),
    (computeCostLoop ops sel sc fuel g1 q v).adjacency =
    (computeCostLoop ops sel sc fuel g2 q v).adjacency := by
  intro fuel
  induction fuel with
  | zero => intro g1 g2 h q v; exact h
  | succ f ih =>
      intro g1 g2 h q v
      match q with
      | [] => exact h
      | p :: rest =>
          rw [computeCostLoop, computeCostLoop]
          by_cases hp : p ∈ v
          · simp only [hp, if_pos]; exact ih h rest v
          · simp only [hp, if_neg, if_false]
            have hpn := processNode_adj_eq ops sel sc h p.2
            rw [← hpn.2]
            exact ih hpn.1 _ _

lemma compute_cost_adj_eq {κ : Type} [DecidableEq κ] {g1 g2 : DirectedGraph κ}
    (h : g1.adjacency = g2.adjacency) (ops : CostOps κ) (sel : List κ → κ) (s : Node) :
    (compute_cost g1 ops sel s).adjacency = (compute_cost g2 ops sel s).adjacency := by
  unfold compute_cost
  have hf : computeCostFuel g1 = computeCostFuel g2 := by
    simp [computeCostFuel, num_edges, edgeList_adj_eq h]
  rw [hf]
  exact computeCostLoop_adj_eq ops sel _ _ h _ _

/-- C2, amended: `_compute_cost` never consults the transition policy, so the
cost tables computed by `compute_costs` are identical for any two policies
over the same adjacency. -/
theorem claim_C2_policy_not_consulted {κ : Type} [DecidableEq κ]
    (adj : List (Node × NodeData κ)) (r1 r2 : Node → Node → Bool)
    (ops : CostOps κ) (sel : List κ → κ) :
    (compute_costs ⟨adj, r1⟩ ops sel).map DirectedGraph.adjacency =
    (compute_costs ⟨adj, r2⟩ ops sel).map DirectedGraph.adjacency := by
  have hadj : (⟨adj, r1⟩ : DirectedGraph κ).adjacency = (⟨adj, r2⟩ : DirectedGraph κ).adjacency := rfl
  unfold compute_costs
  have hs : start_nodes (⟨adj, r1⟩ : DirectedGraph κ) = start_nodes (⟨adj, r2⟩ : DirectedGraph κ) := rfl
  rw [hs]
  cases start_nodes (⟨adj, r2⟩ : DirectedGraph κ) with
  | error e => rfl
  | ok starts =>
      simp only [Except.map]
      congr 1
      refine foldl_adj_eq _ ?_ starts _ _ hadj
      intro g1 g2 s hgg
      exact compute_cost_adj_eq hgg ops sel s

/-! Shape preservation: the successor lists survive cost propagation. -/

lemma updateData_shape {κ : Type} (g : DirectedGraph κ) (n : Node)
    (f : NodeData κ → NodeData κ) (hf : ∀ d, (f d).next = d.next) :
    (updateData g n f).adjacency.map (fun e => (e.1, e.2.next)) =
    g.adjacency.map (fun e => (e.1, e.2.next)) := by
  simp only [updateData, List.map_map]
  apply List.map_congr_left
  intro e _
  by_cases he : e.1 = n <;> simp [he, hf, Function.comp]

lemma foldl_shape {κ α : Type} (S : DirectedGraph κ → α → DirectedGraph κ)
    (hS : ∀ (g : DirectedGraph κ) (x : α),
      (S g x).adjacency.map (fun e => (e.1, e.2.next)) =
      g.adjacency.map (fun e => (e.1, e.2.next))) :
    ∀ (l : List α) (g : DirectedGraph κ),
      (l.foldl S g).adjacency.map (fun e => (e.1, e.2.next)) =
      g.adjacency.map (fun e => (e.1, e.2.next)) := by
  intro l
  induction l with
  | nil => intro g; rfl
  | cons x rest ih => intro g; rw [List.foldl_cons, ih, hS]

lemma processNode_shape {κ : Type} [DecidableEq κ] (ops : CostOps κ) (sel : List κ → κ)
    (sc : κ) (g : DirectedGraph κ) (cur : Node) :
    (processNode ops sel sc g cur).1.adjacency.map (fun e => (e.1, e.2.next)) =
    g.adjacency.map (fun e => (e.1, e.2.next)) := by
  unfold processNode
  refine foldl_shape _ ?_ _ _
  intro g o
  refine foldl_shape _ ?_ _ _
  intro g pc
  exact updateData_shape g _ _ (fun d => rfl)

lemma computeCostLoop_shape {κ : Type} [DecidableEq κ] (ops : CostOps κ) (sel : List κ → κ)
    (sc : κ) : ∀ (fuel : Nat) (g : DirectedGraph κ) (q v : List (Option Node × Node)),
    (computeCostLoop ops sel sc fuel g q v).adjacency.map (fun e => (e.1, e.2.next)) =
    g.adjacency.map (fun e => (e.1, e.2.next)) := by
  intro fuel
  induction fuel with
  | zero => intro g q v; rfl
  | succ f ih =>
      intro g q v
      match q with
      | [] => rfl
      | p :: rest =>
          rw [computeCostLoop]
          by_cases hp : p ∈ v
          · simp only [hp, if_pos]; exact ih g rest v
          · simp only [hp, if_neg, if_false]
            rw [ih, processNode_shape]

lemma compute_cost_shape {κ : Type} [DecidableEq κ] (g : DirectedGraph κ)
    (ops : CostOps κ) (sel : List κ → κ) (s : Node) :
    (compute_cost g ops sel s).adjacency.map (fun e => (e.1, e.2.next)) =
    g.adjacency.map (fun e => (e.1, e.2.next)) := by
  unfold compute_cost
  exact computeCostLoop_shape ops sel _ _ g _ _

/-- C6, amended (frame half): `compute_costs` mutates only the per-node cost
tables; the node list and every successor list are unchanged. -/
theorem claim_C6_next_lists_unchanged {κ : Type} [DecidableEq κ]
    (g : DirectedGraph κ) (ops : CostOps κ) (sel : List κ → κ) (g' : DirectedGraph κ)
    (h : compute_costs g ops sel = Except.ok g') :
    g'.adjacency.map (fun e => (e.1, e.2.next)) = g.adjacency.map (fun e => (e.1, e.2.next)) := by
  unfold compute_costs at h
  cases hs : start_nodes g with
  | error e => rw [hs] at h; exact absurd h (by simp [Except.map])
  | ok starts =>
      rw [hs] at h
      simp only [Except.map, Except.ok.injEq] at h
      subst h
      refine foldl_shape _ ?_ starts g
      intro g s
      exact compute_cost_shape g ops sel s

/-- Witness for `claim_C6_next_lists_unchanged` at the concrete graph
`gDEF`. -/
theorem claim_C6_next_lists_unchanged_witness :
    ((compute_costs gDEF convOps selMaxDuration).toOption.getD
        (DirectedGraph.empty ConvCost)).adjacency.map (fun e => (e.1, e.2.next)) =
      gDEF.adjacency.map (fun e => (e.1, e.2.next)) :=
  claim_C6_next_lists_unchanged gDEF convOps selMaxDuration
    ((compute_costs gDEF convOps selMaxDuration).toOption.getD (DirectedGraph.empty ConvCost))
    rfl

/-! ## Low-level lemmas about table and adjacency updates (towards claim C10) -/

lemma find?_append_none {α : Type} (p : α → Bool) (l1 l2 : List α)
    (h : l1.find? p = none) : (l1 ++ l2).find? p = l2.find? p := by
  induction l1 with
  | nil => rfl
  | cons x rest ih =>
      have hall := List.find?_eq_none.1 h
      have hx : ¬ p x := hall x (List.mem_cons_self _ _)
      have hrest : rest.find? p = none :=
        List.find?_eq_none.2 (fun a ha => hall a (List.mem_cons_of_mem _ ha))
      rw [List.cons_append, List.find?_cons_of_neg _ hx]
      exact ih hrest

lemma find?_key_update {κ : Type} (l : List (Node × NodeData κ)) (o : Node)
    (f : NodeData κ → NodeData κ) (m : Node) :
    (l.map (fun e => if e.1 = o then (e.1, f e.2) else e)).find?
        (fun e => e.1 = m) =
      (l.find? (fun e => e.1 = m)).map
        (fun e => if e.1 = o then (e.1, f e.2) else e) := by
  induction l with
  | nil => rfl
  | cons e rest ih =>
      by_cases heo : e.1 = o
      · by_cases hem : e.1 = m
        · rw [List.map_cons, if_pos heo,
              List.find?_cons_of_pos _ (by simpa using hem),
              List.find?_cons_of_pos _ (by simpa using hem)]
          simp [heo]
        · rw [List.map_cons, if_pos heo,
              List.find?_cons_of_neg _ (by simpa using hem),
              List.find?_cons_of_neg _ (by simpa using hem)]
          exact ih
      · by_cases hem : e.1 = m
        · rw [List.map_cons, if_neg heo,
              List.find?_cons_of_pos _ (by simpa using hem),
              List.find?_cons_of_pos _ (by simpa using hem)]
          simp [heo]
        · rw [List.map_cons, if_neg heo,
              List.find?_cons_of_neg _ (by simpa using hem),
              List.find?_cons_of_neg _ (by simpa using hem)]
          exact ih

lemma lookupData_updateData_ne {κ : Type} (g : DirectedGraph κ) (o : Node)
    (f : NodeData κ → NodeData κ) (m : Node) (h : m ≠ o) :
    lookupData (updateData g o f) m = lookupData g m := by
  unfold lookupData updateData
  simp only [find?_key_update]
  cases hf : g.adjacency.find? (fun e => e.1 = m) with
  | none => rfl
  | some e =>
      have he : e.1 = m := by have h2 := List.find?_some hf; simpa using h2
      have heo : ¬ e.1 = o := fun hh => h (he ▸ hh)
      simp [heo]

lemma lookupData_updateData_self {κ : Type} (g : DirectedGraph κ) (o : Node)
    (f : NodeData κ → NodeData κ) :
    lookupData (updateData g o f) o = f (lookupData g o) ∨
      (lookupData (updateData g o f) o = lookupData g o ∧
        lookupData g o = { cost := [], next := [] }) := by
  unfold lookupData updateData
  simp only [find?_key_update]
  cases hf : g.adjacency.find? (fun e => e.1 = o) with
  | none => exact Or.inr ⟨rfl, rfl⟩
  | some e =>
      have he : e.1 = o := by have h2 := List.find?_some hf; simpa using h2
      simp [he]

lemma setCost_ne_nil {κ : Type} (t : List (Node × κ × Node)) (a : Node) (v : κ × Node) :
    setCost t a v ≠ [] := by
  unfold setCost
  by_cases h : t.any (fun e => e.1 = a)
  · simp only [h, if_true]
    cases t with
    | nil => simp at h
    | cons e rest => simp
  · simp [h]

lemma mem_setCost {κ : Type} {t : List (Node × κ × Node)} {a : Node} {v : κ × Node}
    {en : Node × κ × Node} (h : en ∈ setCost t a v) : en = (a, v) ∨ en ∈ t := by
  unfold setCost at h
  by_cases hc : t.any (fun e => e.1 = a)
  · simp only [hc, if_true] at h
    rcases List.mem_map.1 h with ⟨e, he, heq⟩
    by_cases heo : e.1 = a
    · simp [heo] at heq; exact Or.inl heq.symm
    · simp [heo] at heq; exact Or.inr (heq ▸ he)
  · simp only [hc, if_false] at h
    rcases List.mem_append.1 h with h1 | h1
    · exact Or.inr h1
    · simp at h1; exact Or.inl h1

lemma lookupCost_mem {κ : Type} {t : List (Node × κ × Node)} {a : Node} {v : κ × Node}
    (h : lookupCost t a = some v) : (a, v) ∈ t := by
  unfold lookupCost at h
  cases hf : t.find? (fun e => e.1 = a) with
  | none => rw [hf] at h; exact absurd h (by simp)
  | some e =>
      rw [hf] at h
      have he : e.1 = a := by have h2 := List.find?_some hf; simpa using h2
      have hm := List.mem_of_find?_eq_some hf
      have hv : e.2 = v := by simpa using h
      have hev : e = (a, v) := by cases e; simp_all
      exact hev ▸ hm

lemma lookupCost_ne_nil {κ : Type} {t : List (Node × κ × Node)} {a : Node}
    (h : lookupCost t a ≠ none) : t ≠ [] := by
  intro hnil
  subst hnil
  exact h rfl

lemma find?_cost_update {κ : Type} (t : List (Node × κ × Node)) (a : Node)
    (v : κ × Node) (m : Node) :
    (t.map (fun e => if e.1 = a then (a, v) else e)).find? (fun e => e.1 = m) =
      (t.find? (fun e => e.1 = m)).map (fun e => if e.1 = a then (a, v) else e) := by
  induction t with
  | nil => rfl
  | cons e rest ih =>
      by_cases hea : e.1 = a
      · by_cases hem : e.1 = m
        · rw [List.map_cons, if_pos hea,
              List.find?_cons_of_pos _ (by simp [hea, hea ▸ hem]),
              List.find?_cons_of_pos _ (by simpa using hem)]
          simp [hea]
        · rw [List.map_cons, if_pos hea,
              List.find?_cons_of_neg _ (by simp [hea, hea ▸ hem]),
              List.find?_cons_of_neg _ (by simpa using hem)]
          exact ih
      · by_cases hem : e.1 = m
        · rw [List.map_cons, if_neg hea,
              List.find?_cons_of_pos _ (by simpa using hem),
              List.find?_cons_of_pos _ (by simpa using hem)]
          simp [hea]
        · rw [List.map_cons, if_neg hea,
              List.find?_cons_of_neg _ (by simpa using hem),
              List.find?_cons_of_neg _ (by simpa using hem)]
          exact ih

lemma lookupCost_setCost_self {κ : Type} (t : List (Node × κ × Node)) (a : Node)
    (v : κ × Node) : lookupCost (setCost t a v) a = some v := by
  unfold setCost lookupCost
  by_cases hc : t.any (fun e => e.1 = a)
  · simp only [hc, if_true, find?_cost_update]
    cases hf : t.find? (fun e => e.1 = a) with
    | none =>
        rcases List.any_eq_true.1 hc with ⟨e, he, hea⟩
        have := List.find?_eq_none.1 hf e he
        exact absurd hea (by simpa using this)
    | some e =>
        have he : e.1 = a := by have h2 := List.find?_some hf; simpa using h2
        simp [he]
  · rw [if_neg hc]
    have hnone : t.find? (fun e => decide (e.1 = a)) = none := by
      refine List.find?_eq_none.2 (fun e he => ?_)
      intro hea
      exact hc (List.any_eq_true.2 ⟨e, he, hea⟩)
    rw [find?_append_none _ _ _ hnone]
    simp [List.find?_cons]

lemma lookupCost_setCost_ne {κ : Type} (t : List (Node × κ × Node)) (a b : Node)
    (v : κ × Node) (h : b ≠ a) : lookupCost (setCost t a v) b = lookupCost t b := by
  unfold setCost lookupCost
  by_cases hc : t.any (fun e => e.1 = a)
  · simp only [hc, if_true, find?_cost_update]
    cases hf : t.find? (fun e => e.1 = b) with
    | none => rfl
    | some e =>
        have he : e.1 = b := by have h2 := List.find?_some hf; simpa using h2
        have hea : ¬ e.1 = a := fun hh => h (he ▸ hh)
        simp [hea]
  · rw [if_neg hc]
    cases hf : t.find? (fun e => decide (e.1 = b)) with
    | none =>
        rw [find?_append_none _ _ _ hf]
        simp [List.find?_cons, Ne.symm h]
    | some e =>
        have : ((t ++ [(a, v)]).find? (fun e => decide (e.1 = b))) = some e := by
          clear hc
          induction t with
          | nil => simp at hf
          | cons x rest ih =>
              rw [List.cons_append]
              by_cases hx : x.1 = b
              · rw [List.find?_cons_of_pos _ (by simpa using hx)]
                rw [List.find?_cons_of_pos _ (by simpa using hx)] at hf
                exact hf
              · rw [List.find?_cons_of_neg _ (by simpa using hx)]
                rw [List.find?_cons_of_neg _ (by simpa using hx)] at hf
                exact ih hf
        rw [this]

lemma lookupCost_setCost_isSome_mono {κ : Type} (t : List (Node × κ × Node))
    (a b : Node) (v : κ × Node) (h : lookupCost t b ≠ none) :
    lookupCost (setCost t a v) b ≠ none := by
  by_cases hba : b = a
  · subst hba; rw [lookupCost_setCost_self]; simp
  · rw [lookupCost_setCost_ne t a b v hba]; exact h

lemma keys_setCost_nodup {κ : Type} (t : List (Node × κ × Node)) (a : Node)
    (v : κ × Node) (h : (t.map Prod.fst).Nodup) :
    ((setCost t a v).map Prod.fst).Nodup := by
  unfold setCost
  by_cases hc : t.any (fun e => e.1 = a)
  · rw [if_pos hc]
    have hk : (t.map (fun e => if e.1 = a then (a, v) else e)).map Prod.fst =
        t.map Prod.fst := by
      rw [List.map_map]
      apply List.map_congr_left
      intro e _
      by_cases hea : e.1 = a <;> simp [hea, Function.comp]
    rw [hk]; exact h
  · rw [if_neg hc, List.map_append]
    refine List.Nodup.append h (List.nodup_singleton a) ?_
    intro x hx hxa
    simp at hxa
    subst hxa
    rcases List.mem_map.1 hx with ⟨e, he, hea⟩
    exact hc (List.any_eq_true.2 ⟨e, he, by simp [hea]⟩)

lemma lookupCost_of_mem_nodup {κ : Type} {t : List (Node × κ × Node)}
    (h : (t.map Prod.fst).Nodup) {en : Node × κ × Node} (hen : en ∈ t) :
    lookupCost t en.1 = some en.2 := by
  induction t with
  | nil => simp at hen
  | cons x rest ih =>
      rcases List.mem_cons.1 hen with rfl | hen2
      · unfold lookupCost
        rw [List.find?_cons_of_pos _ (by simp)]
      · have hx : ¬ x.1 = en.1 := by
          intro he
          have h1 : x.1 ∉ rest.map Prod.fst := by
            rw [List.map_cons] at h
            exact (List.nodup_cons.1 h).1
          exact h1 (he ▸ List.mem_map_of_mem Prod.fst hen2)
        have hrest : (rest.map Prod.fst).Nodup := by
          rw [List.map_cons] at h
          exact (List.nodup_cons.1 h).2
        unfold lookupCost
        rw [List.find?_cons_of_neg _ (by simpa using hx)]
        exact ih hrest hen2

lemma stepOk_refl {κ : Type} (g : DirectedGraph κ) : StepOk g g :=
  ⟨fun _ => rfl, fun _ h => h, fun _ _ h => h⟩

lemma stepOk_trans {κ : Type} {g1 g2 g3 : DirectedGraph κ}
    (h1 : StepOk g1 g2) (h2 : StepOk g2 g3) : StepOk g1 g3 :=
  ⟨fun n => (h2.1 n).trans (h1.1 n),
   fun n h => h2.2.1 n (h1.2.1 n h),
   fun n a h => h2.2.2 n a (h1.2.2 n a h)⟩

lemma installCost_ne_nil {κ : Type} [DecidableEq κ] (ops : CostOps κ) (sel : List κ → κ)
    (t : List (Node × κ × Node)) (incoming : Node) (pc : κ) (o : Node) :
    installCost ops sel t incoming pc o ≠ [] := by
  unfold installCost
  cases hl : lookupCost t (ops.ancestor (ops.combine pc o)) with
  | none => exact setCost_ne_nil _ _ _
  | some pv => cases pv with | mk pc0 pi0 => exact setCost_ne_nil _ _ _

lemma installCost_isSome_mono {κ : Type} [DecidableEq κ] (ops : CostOps κ)
    (sel : List κ → κ) (t : List (Node × κ × Node)) (incoming : Node) (pc : κ)
    (o : Node) (b : Node) (h : lookupCost t b ≠ none) :
    lookupCost (installCost ops sel t incoming pc o) b ≠ none := by
  unfold installCost
  cases hl : lookupCost t (ops.ancestor (ops.combine pc o)) with
  | none => exact lookupCost_setCost_isSome_mono _ _ _ _ h
  | some pv => cases pv with | mk pc0 pi0 => exact lookupCost_setCost_isSome_mono _ _ _ _ h

lemma upd_stepOk {κ : Type} [DecidableEq κ] (ops : CostOps κ) (sel : List κ → κ)
    (cur : Node) (pc : κ) (o : Node) (g : DirectedGraph κ) :
    StepOk g (updateData g o (fun d => { d with cost := installCost ops sel d.cost cur pc o })) := by
  refine ⟨?_, ?_, ?_⟩
  · intro n
    by_cases hno : n = o
    · rw [hno]
      rcases lookupData_updateData_self g o
          (fun d => { d with cost := installCost ops sel d.cost cur pc o }) with h | ⟨h, _⟩
      · rw [h]
      · rw [h]
    · rw [lookupData_updateData_ne g o _ n hno]
  · intro n hn
    by_cases hno : n = o
    · rw [hno]; rw [hno] at hn
      rcases lookupData_updateData_self g o
          (fun d => { d with cost := installCost ops sel d.cost cur pc o }) with h | ⟨h, _⟩
      · rw [h]; exact installCost_ne_nil ops sel _ cur pc o
      · rw [h]; exact hn
    · rw [lookupData_updateData_ne g o _ n hno]; exact hn
  · intro n a ha
    by_cases hno : n = o
    · rw [hno]; rw [hno] at ha
      rcases lookupData_updateData_self g o
          (fun d => { d with cost := installCost ops sel d.cost cur pc o }) with h | ⟨h, _⟩
      · rw [h]; exact installCost_isSome_mono ops sel _ cur pc o a ha
      · rw [h]; exact ha
    · rw [lookupData_updateData_ne g o _ n hno]; exact ha

/-- One table install (lines 322-333) preserves the propagation invariants,
provided the target `o` is an edge target and the propagated cost is justified
at `cur` (`Dcond`). -/
lemma upd_inv {κ : Type} [DecidableEq κ] (ops : CostOps κ) (sel : List κ → κ)
    (T S : List Node) (s : Node)
    (hops2 : ∀ c n, ops.ancestor (ops.combine c n) = ops.ancestor c)
    (hsel : ∀ x y, sel [x, y] = x ∨ sel [x, y] = y)
    (hsS : s ∈ S) (hsT : ¬ s ∈ T)
    (g : DirectedGraph κ) (hI : CostInv ops T S g)
    (cur o : Node) (pc : κ) (ho : o ∈ T) (hD : Dcond ops s g cur pc) :
    CostInv ops T S
      (updateData g o (fun d => { d with cost := installCost ops sel d.cost cur pc o })) := by
  obtain ⟨I1, I2, I3, I4, I6⟩ := hI
  have hanc : ops.ancestor (ops.combine pc o) = ops.ancestor pc := hops2 pc o
  have hstep := upd_stepOk ops sel cur pc o g
  have hcurD : lookupCost
        (lookupData (updateData g o
          (fun d => { d with cost := installCost ops sel d.cost cur pc o })) cur).cost
        (ops.ancestor (ops.combine pc o)) ≠ none ∨
      (cur = ops.ancestor (ops.combine pc o) ∧ ¬ cur ∈ T) := by
    rcases hD with hD1 | ⟨hD2a, hD2b⟩
    · exact Or.inl (hstep.2.2 cur _ (by rw [hanc]; exact hD1))
    · exact Or.inr ⟨by rw [hanc, ← hD2a], by rw [hD2b]; exact hsT⟩
  have haS : ops.ancestor (ops.combine pc o) ∈ S := by
    rcases hD with hD1 | ⟨hD2a, hD2b⟩
    · cases hv : lookupCost (lookupData g cur).cost (ops.ancestor pc) with
      | none => exact absurd hv hD1
      | some v =>
          have hm := lookupCost_mem hv
          have h2 := (I2 cur _ hm).2
          rw [hanc]; exact h2
    · rw [hanc, ← hD2a, hD2b]; exact hsS
  refine ⟨?_, ?_, ?_, ?_, ?_⟩
  · -- nonempty tables live only at targets
    intro n hn
    by_cases hno : n = o
    · rw [hno]; exact ho
    · rw [lookupData_updateData_ne g o _ n hno] at hn
      exact I1 n hn
  · -- keys are the stored ancestors, and are seeds
    intro n en hen
    by_cases hno : n = o
    · rw [hno] at hen
      rcases lookupData_updateData_self g o
          (fun d => { d with cost := installCost ops sel d.cost cur pc o }) with h | ⟨h, _⟩
      · rw [h] at hen
        replace hen : en ∈ installCost ops sel (lookupData g o).cost cur pc o := hen
        revert hen
        unfold installCost
        cases hl : lookupCost (lookupData g o).cost (ops.ancestor (ops.combine pc o)) with
        | none =>
            intro hen
            rcases mem_setCost hen with heq | hold
            · subst heq
              exact ⟨rfl, haS⟩
            · exact I2 o en hold
        | some pv =>
            cases pv with
            | mk pc0 pi0 =>
                intro hen
                rcases mem_setCost hen with heq | hold
                · subst heq
                  refine ⟨?_, haS⟩
                  rcases hsel pc0 (ops.combine pc o) with hs1 | hs1
                  · rw [hs1]
                    have hm := lookupCost_mem hl
                    exact (I2 o _ hm).1
                  · rw [hs1]
                · exact I2 o en hold
      · rw [h] at hen; exact I2 o en hen
    · rw [lookupData_updateData_ne g o _ n hno] at hen
      exact I2 n en hen
  · -- table keys stay nodup
    intro n
    by_cases hno : n = o
    · rw [hno]
      rcases lookupData_updateData_self g o
          (fun d => { d with cost := installCost ops sel d.cost cur pc o }) with h | ⟨h, _⟩
      · rw [h]
        show ((installCost ops sel (lookupData g o).cost cur pc o).map Prod.fst).Nodup
        unfold installCost
        cases hl : lookupCost (lookupData g o).cost (ops.ancestor (ops.combine pc o)) with
        | none => exact keys_setCost_nodup _ _ _ (I3 o)
        | some pv =>
            cases pv with
            | mk pc0 pi0 => exact keys_setCost_nodup _ _ _ (I3 o)
      · rw [h]; exact I3 o
    · rw [lookupData_updateData_ne g o _ n hno]; exact I3 n
  · -- predecessor pointers are justified
    intro n a' c p hlk
    by_cases hno : n = o
    · rw [hno] at hlk
      rcases lookupData_updateData_self g o
          (fun d => { d with cost := installCost ops sel d.cost cur pc o }) with h | ⟨h, _⟩
      · rw [h] at hlk
        replace hlk :
            lookupCost (installCost ops sel (lookupData g o).cost cur pc o) a' = some (c, p) :=
          hlk
        revert hlk
        unfold installCost
        cases hl : lookupCost (lookupData g o).cost (ops.ancestor (ops.combine pc o)) with
        | none =>
            intro hlk
            by_cases ha' : a' = ops.ancestor (ops.combine pc o)
            · subst ha'
              rw [lookupCost_setCost_self] at hlk
              have hpair : ops.combine pc o = c ∧ cur = p := by
                have h2 := Option.some.inj hlk
                exact ⟨congrArg Prod.fst h2, congrArg Prod.snd h2⟩
              rw [← hpair.2]
              exact hcurD
            · rw [lookupCost_setCost_ne _ _ _ _ ha'] at hlk
              rcases I4 o a' c p hlk with hI4 | hI4
              · exact Or.inl (hstep.2.2 p a' hI4)
              · exact Or.inr hI4
        | some pv =>
            cases pv with
            | mk pc0 pi0 =>
                intro hlk
                by_cases ha' : a' = ops.ancestor (ops.combine pc o)
                · subst ha'
                  rw [lookupCost_setCost_self] at hlk
                  have h2 := Option.some.inj hlk
                  have hp : (if sel [pc0, ops.combine pc o] = pc0 then pi0 else cur) = p :=
                    congrArg Prod.snd h2
                  by_cases hite : sel [pc0, ops.combine pc o] = pc0
                  · rw [if_pos hite] at hp
                    rw [← hp]
                    rcases I4 o (ops.ancestor (ops.combine pc o)) pc0 pi0 hl with hI4 | hI4
                    · exact Or.inl (hstep.2.2 pi0 _ hI4)
                    · exact Or.inr hI4
                  · rw [if_neg hite] at hp
                    rw [← hp]
                    exact hcurD
                · rw [lookupCost_setCost_ne _ _ _ _ ha'] at hlk
                  rcases I4 o a' c p hlk with hI4 | hI4
                  · exact Or.inl (hstep.2.2 p a' hI4)
                  · exact Or.inr hI4
      · rw [h] at hlk
        rcases I4 o a' c p hlk with hI4 | hI4
        · exact Or.inl (hstep.2.2 p a' hI4)
        · exact Or.inr hI4
    · rw [lookupData_updateData_ne g o _ n hno] at hlk
      rcases I4 n a' c p hlk with hI4 | hI4
      · exact Or.inl (hstep.2.2 p a' hI4)
      · exact Or.inr hI4
  · -- successor lists still point into T
    intro n m hm
    rw [hstep.1 n] at hm
    exact I6 n m hm

lemma dcond_mono {κ : Type} {ops : CostOps κ} {s : Node} {g g' : DirectedGraph κ}
    (hst : StepOk g g') {cur : Node} {pc : κ} (hD : Dcond ops s g cur pc) :
    Dcond ops s g' cur pc := by
  rcases hD with h | h
  · exact Or.inl (hst.2.2 cur _ h)
  · exact Or.inr h

lemma upd_o_ok {κ : Type} [DecidableEq κ] (ops : CostOps κ) (sel : List κ → κ)
    (cur : Node) (pc : κ) (o : Node) (g : DirectedGraph κ) :
    (lookupData (updateData g o
        (fun d => { d with cost := installCost ops sel d.cost cur pc o })) o).cost ≠ [] ∨
    (lookupData (updateData g o
        (fun d => { d with cost := installCost ops sel d.cost cur pc o })) o).next = [] := by
  rcases lookupData_updateData_self g o
      (fun d => { d with cost := installCost ops sel d.cost cur pc o }) with h | ⟨h, hdef⟩
  · rw [h]; exact Or.inl (installCost_ne_nil ops sel _ cur pc o)
  · rw [h, hdef]; exact Or.inr rfl

/-- The inner fold of `processNode` (over `previous_costs`, for one fixed
successor `o`) preserves the invariants, advances the state monotonically,
and leaves `o` with a nonempty table unless `o` is unregistered (no
successors). -/
lemma innerFold_inv {κ : Type} [DecidableEq κ] (ops : CostOps κ) (sel : List κ → κ)
    (T S : List Node) (s : Node)
    (hops2 : ∀ c n, ops.ancestor (ops.combine c n) = ops.ancestor c)
    (hsel : ∀ x y, sel [x, y] = x ∨ sel [x, y] = y)
    (hsS : s ∈ S) (hsT : ¬ s ∈ T) (cur o : Node) (ho : o ∈ T) :
    ∀ (pcs : List κ) (g : DirectedGraph κ), CostInv ops T S g →
      (∀ pc ∈ pcs, Dcond ops s g cur pc) →
      CostInv ops T S (pcs.foldl (fun g3 pc =>
          updateData g3 o (fun d => { d with cost := installCost ops sel d.cost cur pc o })) g) ∧
      StepOk g (pcs.foldl (fun g3 pc =>
          updateData g3 o (fun d => { d with cost := installCost ops sel d.cost cur pc o })) g) ∧
      (pcs ≠ [] →
        ((lookupData (pcs.foldl (fun g3 pc =>
            updateData g3 o (fun d => { d with cost := installCost ops sel d.cost cur pc o })) g) o).cost ≠ [] ∨
         (lookupData (pcs.foldl (fun g3 pc =>
            updateData g3 o (fun d => { d with cost := installCost ops sel d.cost cur pc o })) g) o).next = [])) := by
  intro pcs
  induction pcs with
  | nil =>
      intro g hI _
      exact ⟨hI, stepOk_refl g, fun h => absurd rfl h⟩
  | cons pc rest ih =>
      intro g hI hD
      rw [List.foldl_cons]
      have hInvU := upd_inv ops sel T S s hops2 hsel hsS hsT g hI cur o pc ho
        (hD pc (List.mem_cons_self _ _))
      have hstepU := upd_stepOk ops sel cur pc o g
      have hDrest : ∀ q ∈ rest,
          Dcond ops s (updateData g o
            (fun d => { d with cost := installCost ops sel d.cost cur pc o })) cur q :=
        fun q hq => dcond_mono hstepU (hD q (List.mem_cons_of_mem _ hq))
      obtain ⟨hInvF, hstepF, _⟩ := ih _ hInvU hDrest
      refine ⟨hInvF, stepOk_trans hstepU hstepF, fun _ => ?_⟩
      rcases upd_o_ok ops sel cur pc o g with hok | hok
      · exact Or.inl (hstepF.2.1 o hok)
      · exact Or.inr ((hstepF.1 o).trans hok)

/-- The outer fold of `processNode` (over the successor list). -/
lemma outerFold_inv {κ : Type} [DecidableEq κ] (ops : CostOps κ) (sel : List κ → κ)
    (T S : List Node) (s : Node)
    (hops2 : ∀ c n, ops.ancestor (ops.combine c n) = ops.ancestor c)
    (hsel : ∀ x y, sel [x, y] = x ∨ sel [x, y] = y)
    (hsS : s ∈ S) (hsT : ¬ s ∈ T) (cur : Node) (pcs : List κ) (hpcs : pcs ≠ []) :
    ∀ (os : List Node) (g : DirectedGraph κ), CostInv ops T S g →
      (∀ o ∈ os, o ∈ T) →
      (∀ pc ∈ pcs, Dcond ops s g cur pc) →
      CostInv ops T S (os.foldl (fun g2 o => pcs.foldl (fun g3 pc =>
          updateData g3 o (fun d => { d with cost := installCost ops sel d.cost cur pc o })) g2) g) ∧
      StepOk g (os.foldl (fun g2 o => pcs.foldl (fun g3 pc =>
          updateData g3 o (fun d => { d with cost := installCost ops sel d.cost cur pc o })) g2) g) ∧
      (∀ o ∈ os,
        ((lookupData (os.foldl (fun g2 o => pcs.foldl (fun g3 pc =>
            updateData g3 o (fun d => { d with cost := installCost ops sel d.cost cur pc o })) g2) g) o).cost ≠ [] ∨
         (lookupData (os.foldl (fun g2 o => pcs.foldl (fun g3 pc =>
            updateData g3 o (fun d => { d with cost := installCost ops sel d.cost cur pc o })) g2) g) o).next = [])) := by
  intro os
  induction os with
  | nil =>
      intro g hI _ _
      refine ⟨hI, stepOk_refl g, fun o ho => absurd ho (by simp)⟩
  | cons o rest ih =>
      intro g hI hT hD
      rw [List.foldl_cons]
      obtain ⟨hInv1, hstep1, hok1⟩ :=
        innerFold_inv ops sel T S s hops2 hsel hsS hsT cur o
          (hT o (List.mem_cons_self _ _)) pcs g hI hD
      obtain ⟨hInvF, hstepF, hokF⟩ := ih _ hInv1
        (fun o2 ho2 => hT o2 (List.mem_cons_of_mem _ ho2))
        (fun pc hpc => dcond_mono hstep1 (hD pc hpc))
      refine ⟨hInvF, stepOk_trans hstep1 hstepF, ?_⟩
      intro o2 ho2
      rcases List.mem_cons.1 ho2 with rfl | ho2
      · rcases hok1 hpcs with hok | hok
        · exact Or.inl (hstepF.2.1 o2 hok)
        · exact Or.inr ((hstepF.1 o2).trans hok)
      · exact hokF o2 ho2

/-- Processing one queue pair preserves the invariants; every enqueued pair
points at a node that now has a nonempty table or has no successors. -/
lemma processNode_inv {κ : Type} [DecidableEq κ] (ops : CostOps κ) (sel : List κ → κ)
    (T S : List Node) (s : Node) (sc : κ)
    (hops2 : ∀ c n, ops.ancestor (ops.combine c n) = ops.ancestor c)
    (hsel : ∀ x y, sel [x, y] = x ∨ sel [x, y] = y)
    (hsS : s ∈ S) (hsT : ¬ s ∈ T) (hsc : ops.ancestor sc = s)
    (g : DirectedGraph κ) (cur : Node) (hI : CostInv ops T S g)
    (hcur : (lookupData g cur).cost = [] → (cur = s ∨ (lookupData g cur).next = [])) :
    CostInv ops T S (processNode ops sel sc g cur).1 ∧
    StepOk g (processNode ops sel sc g cur).1 ∧
    (∀ pr ∈ (processNode ops sel sc g cur).2, QOk (processNode ops sel sc g cur).1 s pr) := by
  have h2 : (processNode ops sel sc g cur).2 =
      (lookupData g cur).next.map (fun o => (some cur, o)) := rfl
  cases hE : (lookupData g cur).cost.isEmpty with
  | true =>
      have hEmpty : (lookupData g cur).cost = [] := List.isEmpty_iff.1 hE
      rcases hcur hEmpty with hcs | hnx
      · -- the seed itself: previous_costs = [seedCost]
        have h1 : (processNode ops sel sc g cur).1 =
            (lookupData g cur).next.foldl (fun g2 o => ([sc] : List κ).foldl (fun g3 pc =>
              updateData g3 o
                (fun d => { d with cost := installCost ops sel d.cost cur pc o })) g2) g := by
          show ((lookupData g cur).next.foldl (fun g2 o =>
              (if (lookupData g cur).cost.isEmpty then [sc]
               else (lookupData g cur).cost.map (fun e => e.2.1)).foldl (fun g3 pc =>
                updateData g3 o
                  (fun d => { d with cost := installCost ops sel d.cost cur pc o })) g2) g) = _
          simp only [hE, if_true]
        obtain ⟨hInvF, hstepF, hokF⟩ :=
          outerFold_inv ops sel T S s hops2 hsel hsS hsT cur [sc] (by simp)
            ((lookupData g cur).next) g hI (fun o ho => hI.2.2.2.2 cur o ho)
            (fun pc hpc => by
              have hpc2 : pc = sc := by simpa using hpc
              subst hpc2
              exact Or.inr ⟨by rw [hsc, ← hcs], hcs⟩)
        rw [h1, h2]
        refine ⟨hInvF, hstepF, ?_⟩
        intro pr hpr
        rcases List.mem_map.1 hpr with ⟨o, ho, rfl⟩
        intro htab
        rcases hokF o ho with hok | hok
        · exact absurd htab hok
        · exact Or.inr hok
      · -- no successors: the folds are empty and nothing changes
        have h1 : (processNode ops sel sc g cur).1 = g := by
          show ((lookupData g cur).next.foldl _ g) = g
          rw [hnx]
          rfl
        rw [h1, h2, hnx]
        exact ⟨hI, stepOk_refl g, by simp⟩
  | false =>
      have hNE : (lookupData g cur).cost ≠ [] := by
        intro hh
        rw [hh] at hE
        simp at hE
      have h1 : (processNode ops sel sc g cur).1 =
          (lookupData g cur).next.foldl (fun g2 o =>
            ((lookupData g cur).cost.map (fun e => e.2.1)).foldl (fun g3 pc =>
              updateData g3 o
                (fun d => { d with cost := installCost ops sel d.cost cur pc o })) g2) g := by
        show ((lookupData g cur).next.foldl (fun g2 o =>
            (if (lookupData g cur).cost.isEmpty then [sc]
             else (lookupData g cur).cost.map (fun e => e.2.1)).foldl (fun g3 pc =>
              updateData g3 o
                (fun d => { d with cost := installCost ops sel d.cost cur pc o })) g2) g) = _
        simp only [hE, Bool.false_eq_true, if_false]
      obtain ⟨hInvF, hstepF, hokF⟩ :=
        outerFold_inv ops sel T S s hops2 hsel hsS hsT cur
          ((lookupData g cur).cost.map (fun e => e.2.1))
          (by simpa using hNE)
          ((lookupData g cur).next) g hI (fun o ho => hI.2.2.2.2 cur o ho)
          (fun pc hpc => by
            rcases List.mem_map.1 hpc with ⟨en, hen, rfl⟩
            refine Or.inl ?_
            rw [(hI.2.1 cur en hen).1]
            rw [lookupCost_of_mem_nodup (hI.2.2.1 cur) hen]
            simp)
      rw [h1, h2]
      refine ⟨hInvF, hstepF, ?_⟩
      intro pr hpr
      rcases List.mem_map.1 hpr with ⟨o, ho, rfl⟩
      intro htab
      rcases hokF o ho with hok | hok
      · exact absurd htab hok
      · exact Or.inr hok

lemma qok_mono {κ : Type} {g g' : DirectedGraph κ} {s : Node}
    (hst : StepOk g g') {pr : Option Node × Node} (h : QOk g s pr) : QOk g' s pr := by
  intro htab
  have hg : (lookupData g pr.2).cost = [] := by
    by_contra hne
    exact (hst.2.1 pr.2 hne) htab
  rcases h hg with h1 | h1
  · exact Or.inl h1
  · exact Or.inr ((hst.1 pr.2).trans h1)

/-- The breadth-first loop of `_compute_cost` preserves the invariants. -/
lemma computeCostLoop_inv {κ : Type} [DecidableEq κ] (ops : CostOps κ) (sel : List κ → κ)
    (T S : List Node) (s : Node) (sc : κ)
    (hops2 : ∀ c n, ops.ancestor (ops.combine c n) = ops.ancestor c)
    (hsel : ∀ x y, sel [x, y] = x ∨ sel [x, y] = y)
    (hsS : s ∈ S) (hsT : ¬ s ∈ T) (hsc : ops.ancestor sc = s) :
    ∀ (fuel : Nat) (g : DirectedGraph κ) (q v : List (Option Node × Node)),
      CostInv ops T S g → (∀ pr ∈ q, QOk g s pr) →
      CostInv ops T S (computeCostLoop ops sel sc fuel g q v) ∧
      StepOk g (computeCostLoop ops sel sc fuel g q v) := by
  intro fuel
  induction fuel with
  | zero => intro g q v hI _; exact ⟨hI, stepOk_refl g⟩
  | succ f ih =>
      intro g q v hI hq
      match q with
      | [] => exact ⟨hI, stepOk_refl g⟩
      | p :: rest =>
          rw [computeCostLoop]
          by_cases hp : p ∈ v
          · rw [if_pos hp]
            exact ih g rest v hI (fun pr hpr => hq pr (List.mem_cons_of_mem _ hpr))
          · rw [if_neg hp]
            obtain ⟨hInv1, hstep1, hok1⟩ :=
              processNode_inv ops sel T S s sc hops2 hsel hsS hsT hsc g p.2 hI
                (hq p (List.mem_cons_self _ _))
            obtain ⟨hInvF, hstepF⟩ :=
              ih (processNode ops sel sc g p.2).1
                (rest ++ (processNode ops sel sc g p.2).2) (p :: v) hInv1
                (fun pr hpr => by
                  rcases List.mem_append.1 hpr with hpr | hpr
                  · exact qok_mono hstep1 (hq pr (List.mem_cons_of_mem _ hpr))
                  · exact hok1 pr hpr)
            exact ⟨hInvF, stepOk_trans hstep1 hstepF⟩

lemma compute_cost_inv {κ : Type} [DecidableEq κ] (ops : CostOps κ) (sel : List κ → κ)
    (T S : List Node) (s : Node)
    (hops1 : ∀ n, ops.ancestor (ops.seed n) = n)
    (hops2 : ∀ c n, ops.ancestor (ops.combine c n) = ops.ancestor c)
    (hsel : ∀ x y, sel [x, y] = x ∨ sel [x, y] = y)
    (hsS : s ∈ S) (hsT : ¬ s ∈ T)
    (g : DirectedGraph κ) (hI : CostInv ops T S g) :
    CostInv ops T S (compute_cost g ops sel s) ∧ StepOk g (compute_cost g ops sel s) := by
  unfold compute_cost
  exact computeCostLoop_inv ops sel T S s (ops.seed s) hops2 hsel hsS hsT (hops1 s)
    (computeCostFuel g) g [(none, s)] [] hI
    (fun pr hpr => by
      have hpr2 : pr = (none, s) := by simpa using hpr
      subst hpr2
      intro _
      exact Or.inl rfl)

lemma foldSeeds_inv {κ : Type} [DecidableEq κ] (ops : CostOps κ) (sel : List κ → κ)
    (T S : List Node)
    (hops1 : ∀ n, ops.ancestor (ops.seed n) = n)
    (hops2 : ∀ c n, ops.ancestor (ops.combine c n) = ops.ancestor c)
    (hsel : ∀ x y, sel [x, y] = x ∨ sel [x, y] = y) :
    ∀ (ss : List Node) (g : DirectedGraph κ), CostInv ops T S g →
      (∀ x ∈ ss, x ∈ S ∧ ¬ x ∈ T) →
      CostInv ops T S (ss.foldl (fun g s => compute_cost g ops sel s) g) ∧
      StepOk g (ss.foldl (fun g s => compute_cost g ops sel s) g) := by
  intro ss
  induction ss with
  | nil => intro g hI _; exact ⟨hI, stepOk_refl g⟩
  | cons x rest ih =>
      intro g hI hss
      rw [List.foldl_cons]
      obtain ⟨hInv1, hstep1⟩ :=
        compute_cost_inv ops sel T S x hops1 hops2 hsel
          (hss x (List.mem_cons_self _ _)).1 (hss x (List.mem_cons_self _ _)).2 g hI
      obtain ⟨hInvF, hstepF⟩ := ih _ hInv1 (fun x2 hx2 => hss x2 (List.mem_cons_of_mem _ hx2))
      exact ⟨hInvF, stepOk_trans hstep1 hstepF⟩

lemma next_sub_targets {κ : Type} (g : DirectedGraph κ) :
    ∀ n m : Node, m ∈ (lookupData g n).next → m ∈ (edgeList g).map Prod.snd := by
  intro n m hm
  unfold lookupData at hm
  cases hf : g.adjacency.find? (fun e => e.1 = n) with
  | none => rw [hf] at hm; simp at hm
  | some e =>
      rw [hf] at hm
      have he := List.mem_of_find?_eq_some hf
      have : (e.1, m) ∈ edgeList g := by
        unfold edgeList
        refine List.mem_flatMap.2 ⟨e, he, ?_⟩
        exact List.mem_map_of_mem _ hm
      exact List.mem_map_of_mem Prod.snd this

/-- The invariants hold for a graph whose cost tables are all empty. -/
lemma costInv_init {κ : Type} (ops : CostOps κ) (S : List Node) (g : DirectedGraph κ)
    (hinit : ∀ n : Node, (lookupData g n).cost = []) :
    CostInv ops ((edgeList g).map Prod.snd) S g := by
  refine ⟨?_, ?_, ?_, ?_, ?_⟩
  · intro n hn; exact absurd (hinit n) hn
  · intro n en hen; rw [hinit n] at hen; simp at hen
  · intro n; rw [hinit n]; simp
  · intro n a c p hlk; rw [hinit n] at hlk; exact absurd hlk (by simp [lookupCost])
  · exact next_sub_targets g

/-- After `compute_costs`, the invariants hold with `T` the edge targets and
`S` the start-node list. -/
lemma compute_costs_inv {κ : Type} [DecidableEq κ] (ops : CostOps κ) (sel : List κ → κ)
    (g g' : DirectedGraph κ) (starts : List Node)
    (hops1 : ∀ n, ops.ancestor (ops.seed n) = n)
    (hops2 : ∀ c n, ops.ancestor (ops.combine c n) = ops.ancestor c)
    (hsel : ∀ x y, sel [x, y] = x ∨ sel [x, y] = y)
    (hinit : ∀ n : Node, (lookupData g n).cost = [])
    (hstarts : start_nodes g = Except.ok starts)
    (hcc : compute_costs g ops sel = Except.ok g') :
    CostInv ops ((edgeList g).map Prod.snd) starts g' := by
  have hmem : ∀ x ∈ starts, x ∈ starts ∧ ¬ x ∈ (edgeList g).map Prod.snd := by
    intro x hx
    refine ⟨hx, ?_⟩
    unfold start_nodes at hstarts
    by_cases he : (edgeList g).isEmpty
    · rw [if_pos he] at hstarts; exact absurd hstarts (by simp)
    · rw [if_neg he] at hstarts
      have hx2 : x ∈ (firstDedup ((edgeList g).map Prod.fst)).filter
          (fun n => ¬ (n ∈ (edgeList g).map Prod.snd)) := by
        have heq := Except.ok.inj hstarts
        rw [heq]; exact hx
      have := (List.mem_filter.1 hx2).2
      simpa using this
  unfold compute_costs at hcc
  rw [hstarts] at hcc
  simp only [Except.map, Except.ok.injEq] at hcc
  subst hcc
  exact (foldSeeds_inv ops sel ((edgeList g).map Prod.snd) starts hops1 hops2 hsel
    starts g (costInv_init ops starts g hinit) hmem).1

lemma mem_dropLast_or_eq {α : Type} :
    ∀ (l : List α) (p m : α), l.getLast? = some p → m ∈ l → m ∈ l.dropLast ∨ m = p := by
  intro l
  induction l with
  | nil => intro p m h _; simp at h
  | cons x rest ih =>
      intro p m h hm
      cases rest with
      | nil =>
          have hxp : x = p := by simpa using h
          have hmx : m = x := by simpa using hm
          exact Or.inr (hmx.trans hxp)
      | cons y rest2 =>
          have h2 : (y :: rest2).getLast? = some p := by
            rw [← h, List.getLast?_cons_cons]
          rcases List.mem_cons.1 hm with rfl | hm2
          · left
            simp [List.dropLast_cons₂]
          · rcases ih p m h2 hm2 with h3 | h3
            · left
              rw [List.dropLast_cons₂]
              exact List.mem_cons_of_mem _ h3
            · exact Or.inr h3

/-- The backward reconstruction loop of `best_path`: whenever it returns, the
returned node list ends at the node whose table is empty and that node is the
target ancestor; every node visited before it has a nonempty table. -/
lemma walkBack_spec {κ : Type} [DecidableEq κ] (g : DirectedGraph κ) (ops : CostOps κ)
    (T S : List Node) (hI : CostInv ops T S g) (target : Node) :
    ∀ (fuel : Nat) (p : Node) (acc res : List Node),
      acc.getLast? = some p →
      (∀ m ∈ acc.dropLast, (lookupData g m).cost ≠ []) →
      (lookupCost (lookupData g p).cost target ≠ none ∨ (p = target ∧ ¬ p ∈ T)) →
      walkBack g target fuel p acc = Except.ok res →
      res.getLast? = some target ∧ (lookupData g target).cost = [] ∧
        (∀ m ∈ res.dropLast, (lookupData g m).cost ≠ []) := by
  intro fuel
  induction fuel with
  | zero => intro p acc res _ _ _ hw; exact absurd hw (by simp [walkBack])
  | succ f ih =>
      intro p acc res hlast hdrop hQ hw
      rw [walkBack] at hw
      by_cases hE : (lookupData g p).cost.isEmpty
      · rw [if_pos hE] at hw
        have hres : acc = res := Except.ok.inj hw
        have hEmpty : (lookupData g p).cost = [] := List.isEmpty_iff.1 hE
        rcases hQ with hQ | ⟨hpt, _⟩
        · rw [hEmpty] at hQ
          exact absurd rfl hQ
        · subst hpt
          subst hres
          exact ⟨hlast, hEmpty, hdrop⟩
      · rw [if_neg hE] at hw
        cases hlc : lookupCost (lookupData g p).cost target with
        | none => rw [hlc] at hw; exact absurd hw (by simp)
        | some e =>
            rw [hlc] at hw
            have hQ2 := hI.2.2.2.1 p target e.1 e.2 (by rw [hlc])
            refine ih e.2 (acc ++ [e.2]) res ?_ ?_ hQ2 hw
            · rw [List.getLast?_concat]
            · intro m hm
              rw [List.dropLast_concat] at hm
              rcases mem_dropLast_or_eq acc p m hlast hm with hm2 | hm2
              · exact hdrop m hm2
              · rw [hm2]
                intro hcon
                rw [hcon] at hE
                simp at hE

lemma mem_tempInsert {κ : Type} [DecidableEq κ] {l : List (κ × Node × Node)} {k : κ}
    {v : Node × Node} {en : κ × Node × Node} (h : en ∈ tempInsert l k v) :
    en = (k, v) ∨ en ∈ l := by
  unfold tempInsert at h
  by_cases hc : l.any (fun e => e.1 = k)
  · rw [if_pos hc] at h
    rcases List.mem_map.1 h with ⟨e, he, heq⟩
    by_cases hek : e.1 = k
    · simp [hek] at heq; exact Or.inl heq.symm
    · simp [hek] at heq; exact Or.inr (heq ▸ he)
  · rw [if_neg hc] at h
    rcases List.mem_append.1 h with h1 | h1
    · exact Or.inr h1
    · simp at h1; exact Or.inl h1

lemma tempLookup_mem {κ : Type} [DecidableEq κ] {l : List (κ × Node × Node)} {k : κ}
    {v : Node × Node} (h : tempLookup l k = some v) : (k, v) ∈ l := by
  unfold tempLookup at h
  cases hf : l.find? (fun e => e.1 = k) with
  | none => rw [hf] at h; exact absurd h (by simp)
  | some e =>
      rw [hf] at h
      have he : e.1 = k := by have h2 := List.find?_some hf; simpa using h2
      have hm := List.mem_of_find?_eq_some hf
      have hv : e.2 = v := by simpa using h
      have hev : e = (k, v) := by cases e; simp_all
      exact hev ▸ hm

lemma innerCollect_origin {κ : Type} [DecidableEq κ] (g : DirectedGraph κ)
    (hnd : ∀ n : Node, (((lookupData g n).cost).map Prod.fst).Nodup) (e : Node) :
    ∀ (entries : List (Node × κ × Node)) (acc : List (κ × Node × Node)),
      (∀ entry ∈ entries, entry ∈ (lookupData g e).cost) →
      (∀ en ∈ acc, ∃ a : Node, lookupCost (lookupData g en.2.1).cost a = some (en.1, en.2.2)) →
      ∀ en ∈ entries.foldl (fun acc entry => tempInsert acc entry.2.1 (e, entry.2.2)) acc,
        ∃ a : Node, lookupCost (lookupData g en.2.1).cost a = some (en.1, en.2.2) := by
  intro entries
  induction entries with
  | nil => intro acc _ hacc en hen; exact hacc en hen
  | cons entry rest ih =>
      intro acc hsub hacc en hen
      rw [List.foldl_cons] at hen
      refine ih _ (fun x hx => hsub x (List.mem_cons_of_mem _ hx)) ?_ en hen
      intro en2 hen2
      rcases mem_tempInsert hen2 with rfl | hold
      · refine ⟨entry.1, ?_⟩
        have hm := hsub entry (List.mem_cons_self _ _)
        have := lookupCost_of_mem_nodup (hnd e) hm
        exact this
      · exact hacc en2 hold

lemma collectEndCosts_origin {κ : Type} [DecidableEq κ] (g : DirectedGraph κ)
    (hnd : ∀ n : Node, (((lookupData g n).cost).map Prod.fst).Nodup) :
    ∀ (ends : List Node) (acc : List (κ × Node × Node)),
      (∀ en ∈ acc, ∃ a : Node, lookupCost (lookupData g en.2.1).cost a = some (en.1, en.2.2)) →
      ∀ en ∈ ends.foldl (fun acc e =>
          (lookupData g e).cost.foldl (fun acc entry => tempInsert acc entry.2.1 (e, entry.2.2)) acc) acc,
        ∃ a : Node, lookupCost (lookupData g en.2.1).cost a = some (en.1, en.2.2) := by
  intro ends
  induction ends with
  | nil => intro acc hacc en hen; exact hacc en hen
  | cons e rest ih =>
      intro acc hacc en hen
      rw [List.foldl_cons] at hen
      exact ih _ (innerCollect_origin g hnd e (lookupData g e).cost acc (fun x hx => hx) hacc) en hen

lemma start_nodes_not_target {κ : Type} (g : DirectedGraph κ) (starts : List Node)
    (hstarts : start_nodes g = Except.ok starts) :
    ∀ n ∈ starts, ¬ n ∈ (edgeList g).map Prod.snd := by
  intro n hn
  unfold start_nodes at hstarts
  by_cases he : (edgeList g).isEmpty
  · rw [if_pos he] at hstarts; exact absurd hstarts (by simp)
  · rw [if_neg he] at hstarts
    have hn2 : n ∈ (firstDedup ((edgeList g).map Prod.fst)).filter
        (fun n => ¬ (n ∈ (edgeList g).map Prod.snd)) := by
      have heq := Except.ok.inj hstarts
      rw [heq]; exact hn
    have := (List.mem_filter.1 hn2).2
    simpa using this

/-- C10: after `compute_costs`, every start node keeps an empty cost table
(entries are installed only at successor nodes), and when `best_path`
succeeds, the backward reconstruction loop ends exactly at the single visited
node whose table is empty, and that node is the start node recorded by the
winning cost (its `ancestor`).  The hypotheses are the cost/selection policy
contracts stated in the spec (`ancestor` is the seed and is preserved by
combine; the selection rule picks one of its two arguments) and a graph whose
tables start empty (as built by `add_edge` / `from_tuple_list`). -/
theorem claim_C10_start_tables_empty_walk_ends_at_winner
    {κ : Type} [DecidableEq κ] (g : DirectedGraph κ) (ops : CostOps κ) (sel : List κ → κ)
    (starts : List Node) (g' : DirectedGraph κ)
    (hops1 : ∀ n, ops.ancestor (ops.seed n) = n)
    (hops2 : ∀ c n, ops.ancestor (ops.combine c n) = ops.ancestor c)
    (hsel : ∀ x y, sel [x, y] = x ∨ sel [x, y] = y)
    (hinit : ∀ n : Node, costTableAt g n = [])
    (hstarts : start_nodes g = Except.ok starts)
    (hcc : compute_costs g ops sel = Except.ok g') :
    (∀ n ∈ starts, costTableAt g' n = []) ∧
    (∀ (best : κ) (walk : List Node),
      bestPathCore g ops sel = Except.ok (best, walk) →
      ops.ancestor best ∈ starts ∧
      walk.getLast? = some (ops.ancestor best) ∧
      costTableAt g' (ops.ancestor best) = [] ∧
      ∀ m ∈ walk.dropLast, costTableAt g' m ≠ []) := by
  have hInv := compute_costs_inv ops sel g g' starts hops1 hops2 hsel hinit hstarts hcc
  have hnt := start_nodes_not_target g starts hstarts
  constructor
  · intro n hn
    by_contra hne
    exact (hnt n hn) (hInv.1 n hne)
  · intro best walk hbp
    unfold bestPathCore at hbp
    rw [hcc] at hbp
    simp only [Except.bind] at hbp
    cases hend : end_nodes g' with
    | error e => rw [hend] at hbp; exact absurd hbp (by simp)
    | ok ends =>
        rw [hend] at hbp
        replace hbp :
            (if (collectEndCosts g' ends).isEmpty then
                (Except.error "selection over an empty collection" : Except String (κ × List Node))
              else
                match tempLookup (collectEndCosts g' ends)
                    (sel ((collectEndCosts g' ends).map Prod.fst)) with
                | none => Except.error "KeyError: best_end_node"
                | some ep =>
                    (walkBack g' (ops.ancestor (sel ((collectEndCosts g' ends).map Prod.fst)))
                      (g'.adjacency.length + 1) ep.2 [ep.1, ep.2]).map
                      (fun walk => (sel ((collectEndCosts g' ends).map Prod.fst), walk))) =
              Except.ok (best, walk) := hbp
        by_cases htemp : (collectEndCosts g' ends).isEmpty
        · rw [if_pos htemp] at hbp; exact absurd hbp (by simp)
        · rw [if_neg htemp] at hbp
          cases hlk : tempLookup (collectEndCosts g' ends)
              (sel ((collectEndCosts g' ends).map Prod.fst)) with
          | none => rw [hlk] at hbp; exact absurd hbp (by simp)
          | some ep =>
              rw [hlk] at hbp
              replace hbp :
                  (walkBack g' (ops.ancestor (sel ((collectEndCosts g' ends).map Prod.fst)))
                    (g'.adjacency.length + 1) ep.2 [ep.1, ep.2]).map
                    (fun walk => (sel ((collectEndCosts g' ends).map Prod.fst), walk)) =
                  Except.ok (best, walk) := hbp
              cases hwb : walkBack g'
                  (ops.ancestor (sel ((collectEndCosts g' ends).map Prod.fst)))
                  (g'.adjacency.length + 1) ep.2 [ep.1, ep.2] with
              | error e => rw [hwb] at hbp; exact absurd hbp (by simp [Except.map])
              | ok w =>
                  rw [hwb] at hbp
                  simp only [Except.map, Except.ok.injEq, Prod.mk.injEq] at hbp
                  obtain ⟨hbest, hwalk⟩ := hbp
                  subst hwalk
                  rw [hbest] at hlk hwb
                  have hmem := tempLookup_mem hlk
                  obtain ⟨a, ha⟩ :=
                    collectEndCosts_origin g' hInv.2.2.1 ends [] (by simp) _ hmem
                  have hentry := lookupCost_mem ha
                  have hkey := hInv.2.1 ep.1 _ hentry
                  have htg : ops.ancestor best = a := hkey.1
                  have hQ := hInv.2.2.2.1 ep.1 a best ep.2 ha
                  have hspec := walkBack_spec g' ops ((edgeList g).map Prod.snd) starts hInv
                    (ops.ancestor best) (g'.adjacency.length + 1) ep.2 [ep.1, ep.2] w
                    (by simp)
                    (by
                      intro m hm
                      have hm2 : m = ep.1 := by simpa using hm
                      rw [hm2]
                      intro hcon
                      rw [hcon] at ha
                      exact absurd ha (by simp [lookupCost])
                    )
                    (by rw [htg]; exact hQ)
                    hwb
                  exact ⟨htg ▸ hkey.2, hspec.1, hspec.2.1, hspec.2.2⟩

lemma allCostEmpty_add_edge {κ : Type} (g : DirectedGraph κ)
    (h : ∀ e ∈ g.adjacency, e.2.cost = []) (a b : Node) :
    ∀ e ∈ (add_edge g a b).adjacency, e.2.cost = [] := by
  have hens : ∀ (g2 : DirectedGraph κ) (n : Node),
      (∀ e ∈ g2.adjacency, e.2.cost = []) → ∀ e ∈ (ensureNode g2 n).adjacency, e.2.cost = [] := by
    intro g2 n h2 e he
    unfold ensureNode at he
    by_cases hc : g2.adjacency.any (fun e => e.1 = n)
    · rw [if_pos hc] at he; exact h2 e he
    · rw [if_neg hc] at he
      rcases List.mem_append.1 he with he1 | he1
      · exact h2 e he1
      · have : e = (n, { cost := [], next := [] }) := by simpa using he1
        rw [this]
  intro e he
  unfold add_edge updateData at he
  simp only [List.mem_map] at he
  obtain ⟨e0, he0, heq⟩ := he
  have h0 := hens (ensureNode g a) b (hens g a h) e0 he0
  by_cases hc : e0.1 = a
  · rw [if_pos hc] at heq
    rw [← heq]
    exact h0
  · rw [if_neg hc] at heq
    rw [← heq]
    exact h0

lemma costTableAt_from_tuple_list {κ : Type} (l : List (Node × Node)) (n : Node) :
    costTableAt (from_tuple_list κ l) n = [] := by
  have hfold : ∀ (l2 : List (Node × Node)) (g : DirectedGraph κ),
      (∀ e ∈ g.adjacency, e.2.cost = []) →
      ∀ e ∈ (l2.foldl (fun g p => add_edge g p.1 p.2) g).adjacency, e.2.cost = [] := by
    intro l2
    induction l2 with
    | nil => intro g hg; exact hg
    | cons p rest ih =>
        intro g hg
        rw [List.foldl_cons]
        exact ih _ (allCostEmpty_add_edge g hg p.1 p.2)
  have hall := hfold l (DirectedGraph.empty κ) (by intro e he; simp [DirectedGraph.empty] at he)
  unfold costTableAt lookupData
  cases hf : (from_tuple_list κ l).adjacency.find? (fun e => e.1 = n) with
  | none => rfl
  | some e => exact hall e (List.mem_of_find?_eq_some hf)

lemma selMaxDuration_binary (x y : ConvCost) :
    selMaxDuration [x, y] = x ∨ selMaxDuration [x, y] = y := by
  by_cases h : x.duration < y.duration
  · right; simp [selMaxDuration, selMaxDurationAux, h]
  · left; simp [selMaxDuration, selMaxDurationAux, h]

/-- Witness for `claim_C10_start_tables_empty_walk_ends_at_winner` at the
concrete graph `gDEF` of the C5 scenario. -/
theorem claim_C10_witness :
    (∀ n ∈ [nD, nE],
      costTableAt ((compute_costs gDEF convOps selMaxDuration).toOption.getD
        (DirectedGraph.empty ConvCost)) n = []) ∧
    (∀ (best : ConvCost) (walk : List Node),
      bestPathCore gDEF convOps selMaxDuration = Except.ok (best, walk) →
      convOps.ancestor best ∈ [nD, nE] ∧
      walk.getLast? = some (convOps.ancestor best) ∧
      costTableAt ((compute_costs gDEF convOps selMaxDuration).toOption.getD
        (DirectedGraph.empty ConvCost)) (convOps.ancestor best) = [] ∧
      ∀ m ∈ walk.dropLast,
        costTableAt ((compute_costs gDEF convOps selMaxDuration).toOption.getD
          (DirectedGraph.empty ConvCost)) m ≠ []) :=
  claim_C10_start_tables_empty_walk_ends_at_winner gDEF convOps selMaxDuration [nD, nE]
    ((compute_costs gDEF convOps selMaxDuration).toOption.getD (DirectedGraph.empty ConvCost))
    (fun _ => rfl) (fun _ _ => rfl) selMaxDuration_binary
    (fun n => costTableAt_from_tuple_list [(nD, nF), (nE, nF)] n)
    rfl rfl

end Conversations
